import Mathlib

/-!
A verification development for the `dag_engine` library (Rust): a DAG of
named tasks, validated and compiled by `Graph::froze` (Kahn's algorithm)
and executed concurrently by `Scheduler::run`.

Shallow embedding notes:
* `usize` is modelled as `Nat`; the source's `usize` subtractions are
  modelled with truncated `Nat` subtraction, and every place the source
  decrements a counter additionally records an `underflow` flag that is set
  whenever the decremented value was `0` (the situation in which the Rust
  subtraction would not be a plain mathematical subtraction).  The theorems
  below establish that the flag stays `false` for graphs built through the
  public API, so on that domain the model and the source agree.
* `HashMap<String, usize>` (`nodes_indices`) is modelled as an association
  list to which `add_node` appends, and `HashSet<usize>` (`childrens_set`)
  as a duplicate-free list; only `contains_key` / `get` / `insert` are used
  by the source, so lookup/membership semantics coincide.
* Task bodies are arbitrary user code (`Box<dyn Fn(&C) -> Result<(), TaskError>>`);
  they are modelled by an outcome environment `Nat → TaskOutcome` giving, per
  node index, the result the task reports when it is invoked, exactly the
  three outcomes distinguished by the source's `catch_unwind` wrapper.
* The scheduler's concurrency is modelled by the standard nondeterministic
  event semantics: a dispatched task is a pending unit whose completion
  event may be the next one received at any later `recv`; the choice is an
  explicit `sched : List Nat` parameter, and `run` returns `none` when the
  schedule picks an event that could not arrive there (or is too short).
  The driving loop itself is single threaded in the source, so everything
  else is deterministic given the schedule.
-/

namespace DagEngine

/-- Models `TaskError = Box<dyn std::error::Error + Send>`: an opaque
reported-failure payload; `msg` stands for its `Display` output. -/
structure TaskErr where
  msg : String
deriving DecidableEq

/-- Models `PanicError = Box<dyn Any + Send>` (the abnormal-termination
payload).  `stringPayload` is a payload whose concrete type is `String`,
`strPayload` one whose concrete type is `&'static str` (textual, but a
different type than `String`), `otherPayload` any non-textual payload. -/
inductive PanicPayload where
  | stringPayload (s : String)
  | strPayload (s : String)
  | otherPayload
deriving DecidableEq

/-- Models `err.downcast_ref::<String>()`: succeeds exactly when the
payload's concrete type is `String`. -/
def PanicPayload.downcastString : PanicPayload → Option String
  | .stringPayload s => some s
  | _ => none

/-- A payload "carries a textual message" when it is a `String` or a string
slice; this is the notion used by the spec's wording, not by the source. -/
def PanicPayload.textualMessage : PanicPayload → Option String
  | .stringPayload s => some s
  | .strPayload s => some s
  | .otherPayload => none

/-- Models `enum Error` from `src/error.rs`. -/
inductive Err where
  | InvalidNode (name : String)
  | DuplicatedNode (name : String)
  | NodeNotFound (name : String)
  | InvalidEdge (from_node : String) (to_node : String)
  | DuplicatedEdge (from_node : String) (to_node : String)
  | CyclicGraphFound (ring : String)
  | RuntimeFailed (node : String) (err : TaskErr)
  | RuntimePanicked (node : String) (err : PanicPayload)
deriving DecidableEq

/-- Models `impl Display for Error` from `src/error.rs`. -/
def Err.display : Err → String
  | .InvalidNode name => "invalid node: " ++ name
  | .DuplicatedNode name => "duplicated node: " ++ name
  | .NodeNotFound name => "node not found: " ++ name
  | .InvalidEdge f t => "invalid edge: " ++ f ++ " -> " ++ t
  | .DuplicatedEdge f t => "duplicated edge: " ++ f ++ " -> " ++ t
  | .CyclicGraphFound ring => "found ring in graph: " ++ ring
  | .RuntimeFailed node err => "run " ++ node ++ " failed: " ++ err.msg
  | .RuntimePanicked node err =>
    match err.downcastString with
    | some s => "run " ++ node ++ " panic: " ++ s
    | none => "run " ++ node ++ " panic occurred"

/-- Models `struct Node<C>` from `src/graph.rs` (the task field is carried
by the run-time outcome environment instead, see the header comment). -/
structure Node where
  index : Nat
  name : String
  parent_count : Nat
  childrens : List Nat
  childrens_set : List Nat
deriving DecidableEq

/-- Models `Node::new`. -/
def Node.new (index : Nat) (name : String) : Node :=
  { index := index, name := name, parent_count := 0, childrens := [], childrens_set := [] }

/-- Placeholder node used to totalise list indexing; out-of-bounds indexing
aborts in the source and is proved unreachable on API-built graphs. -/
def Node.dflt : Node := Node.new 0 ""

/-- Models `struct Graph<C>`. -/
structure Graph where
  nodes : List Node
  nodes_indices : List (String × Nat)
deriving DecidableEq

/-- Models `Graph::new`. -/
def Graph.new : Graph := { nodes := [], nodes_indices := [] }

/-- Models `self.nodes_indices.get(name)` (the `HashMap` lookup). -/
def Graph.indexOfName (g : Graph) (name : String) : Option Nat :=
  (g.nodes_indices.find? (fun p => p.1 = name)).map (fun p => p.2)

/-- Models `Graph::add_node`. -/
def Graph.add_node (g : Graph) (name : String) : Except Err Graph :=
  if name = "" then
    .error (.InvalidNode name)
  else if (g.indexOfName name).isSome then
    .error (.DuplicatedNode name)
  else
    let index := g.nodes.length
    .ok { nodes := g.nodes ++ [Node.new index name],
          nodes_indices := g.nodes_indices ++ [(name, index)] }

/-- Models `Graph::add_child`: fails (`DuplicatedEdge`) iff the child's
index is already in the parent's `childrens_set`; otherwise inserts into
the set, increments the child's `parent_count` and appends to the parent's
`childrens` list. -/
def Graph.add_child (parent child : Node) : Except Err (Node × Node) :=
  if child.index ∈ parent.childrens_set then
    .error (.DuplicatedEdge parent.name child.name)
  else
    .ok ({ parent with
             childrens_set := parent.childrens_set ++ [child.index],
             childrens := parent.childrens ++ [child.index] },
         { child with parent_count := child.parent_count + 1 })

/-- Models `Graph::add_edge`.  The source performs the two endpoint updates
through raw-pointer aliasing after `assert_ne!(parent_index, child_index)`;
here they are two `List.set` updates at those indices, which agree with the
source whenever the indices differ (guaranteed on API-built graphs, where
the name→index map is injective). -/
def Graph.add_edge (g : Graph) (from_node to_node : String) : Except Err Graph :=
  if from_node = "" ∨ to_node = "" ∨ from_node = to_node then
    .error (.InvalidEdge from_node to_node)
  else
    match g.indexOfName from_node with
    | none => .error (.NodeNotFound from_node)
    | some parent_index =>
      match g.indexOfName to_node with
      | none => .error (.NodeNotFound to_node)
      | some child_index =>
        match Graph.add_child (g.nodes.getD parent_index Node.dflt)
            (g.nodes.getD child_index Node.dflt) with
        | .error e => .error e
        | .ok (parent', child') =>
          .ok { g with nodes := (g.nodes.set parent_index parent').set child_index child' }

/-- Models `struct FrozenGraph<C>`. -/
structure FrozenGraph where
  graph : Graph
  root : Node
deriving DecidableEq

/-- State of the Kahn while-loop in `Graph::froze`; `underflow` records
whether a `usize` decrement ever hit a zero counter (never, on API-built
graphs: see the no-underflow theorems). -/
structure KahnState where
  in_degrees : List Nat
  queue : List Nat
  queue_i : Nat
  underflow : Bool
deriving DecidableEq

/-- Processing of one child inside the Kahn while-loop: decrement its
remaining in-degree (`*in_degree -= 1`) and enqueue it if the new value is
zero. -/
def kahnChild (acc : KahnState) (child_index : Nat) : KahnState :=
  let d := acc.in_degrees.getD child_index 0
  let acc1 : KahnState :=
    { acc with in_degrees := acc.in_degrees.set child_index (d - 1),
               underflow := acc.underflow || decide (d = 0) }
  if d - 1 = 0 then { acc1 with queue := acc1.queue ++ [child_index] } else acc1

/-- One iteration of the Kahn while-loop: process `queue[queue_i]`,
decrement each of its children's remaining in-degree, enqueue every child
whose in-degree reaches zero. -/
def kahnStep (nodes : List Node) (st : KahnState) : KahnState :=
  let cursor := st.queue.getD st.queue_i 0
  let node := nodes.getD cursor Node.dflt
  let st1 : KahnState := { st with queue_i := st.queue_i + 1 }
  node.childrens.foldl kahnChild st1

/-- The fuelled Kahn while-loop (`while queue_i < queue.len()`); the fuel
`n_node` is sufficient on API-built graphs, where the queue never holds
more than `n_node` entries. -/
def kahnLoop (nodes : List Node) : Nat → KahnState → KahnState
  | 0, st => st
  | fuel + 1, st =>
    if st.queue_i < st.queue.length then kahnLoop nodes fuel (kahnStep nodes st) else st

/-- One step of the initialisation loop of `Graph::froze` (state: root,
graph, queue): if `index`'s precomputed in-degree is zero, link it as a
child of the synthetic root (which increments that node's `parent_count`)
and push it onto the queue.  The source `unwrap`s the `add_child` result;
the error branch (kept as a no-op here) is unreachable because each index
is visited exactly once. -/
def frozeInitStep (in_degrees : List Nat) (acc : Node × Graph × List Nat) (index : Nat) :
    Node × Graph × List Nat :=
  if in_degrees.getD index 0 = 0 then
    match Graph.add_child acc.1 (acc.2.1.nodes.getD index Node.dflt) with
    | .ok (root', child') =>
      (root', { acc.2.1 with nodes := acc.2.1.nodes.set index child' }, acc.2.2 ++ [index])
    | .error _ => acc
  else acc

/-- The initialisation loop of `Graph::froze`, over every index in order. -/
def frozeInit (g : Graph) : Node × Graph × List Nat :=
  (List.range g.nodes.length).foldl
    (frozeInitStep (g.nodes.map (fun n => n.parent_count)))
    (Node.new g.nodes.length "$ROOT", g, [])

/-- The Kahn loop's starting state in `Graph::froze`: remaining in-degrees
copied from each node's (pre-freeze) `parent_count`, queue seeded by the
initialisation loop. -/
def kahnStart (g : Graph) : KahnState :=
  { in_degrees := g.nodes.map (fun n => n.parent_count),
    queue := (frozeInit g).2.2, queue_i := 0, underflow := false }

/-- The final Kahn state computed by `Graph::froze`. -/
def frozeFinal (g : Graph) : KahnState :=
  kahnLoop (frozeInit g).2.1.nodes g.nodes.length (kahnStart g)

/-- The cycle-report string built by `Graph::froze` on failure: starting
from `"["`, append `", "` (when the string is longer than `"["`) and the
node's name, for every node whose remaining in-degree is positive, in
insertion order; then close with `"]"`. -/
def frozeRing (g : Graph) : String :=
  ((List.range g.nodes.length).foldl (fun s index =>
    if 0 < (frozeFinal g).in_degrees.getD index 0 then
      (if 1 < s.length then s ++ ", " else s) ++
        ((frozeInit g).2.1.nodes.getD index Node.dflt).name
    else s) "[") ++ "]"

/-- Models `Graph::froze`. -/
def Graph.froze (g : Graph) : Except Err FrozenGraph :=
  if (frozeFinal g).queue_i < g.nodes.length then
    .error (.CyclicGraphFound (frozeRing g))
  else
    .ok { graph := (frozeInit g).2.1, root := (frozeInit g).1 }

/-- The outcome a node's task reports when invoked (the three cases
distinguished by `panic::catch_unwind` around `task(ctx)` in
`Scheduler::run`): normal success, a reported failure, or an abnormal
termination with a payload. -/
inductive TaskOutcome where
  | succeeds
  | fails (e : TaskErr)
  | panics (p : PanicPayload)
deriving DecidableEq

/-- Models `enum RunningResult` from `src/scheduler.rs`: the completion
event a dispatched unit of concurrency sends on the channel. -/
inductive RunningResult where
  | Done (index : Nat)
  | Error (index : Nat) (err : TaskErr)
  | Panic (index : Nat) (err : PanicPayload)
deriving DecidableEq

/-- The completion event node `i`'s wrapper sends, given its outcome. -/
def eventFor (outcome : Nat → TaskOutcome) (i : Nat) : RunningResult :=
  match outcome i with
  | .succeeds => .Done i
  | .fails e => .Error i e
  | .panics p => .Panic i p

/-- Trace events of one `run`: node `i` was dispatched (its unit of
concurrency spawned), or node `i`'s completion event was consumed from the
channel. -/
inductive REvent where
  | dispatch (index : Nat)
  | consume (index : Nat)
deriving DecidableEq

/-- The indices dispatched during a run, in dispatch order. -/
def dispatchedOf (events : List REvent) : List Nat :=
  events.filterMap (fun e => match e with | .dispatch i => some i | _ => none)

/-- The indices whose completion events were consumed, in consumption order. -/
def consumedOf (events : List REvent) : List Nat :=
  events.filterMap (fun e => match e with | .consume i => some i | _ => none)

/-- Run-scoped scheduler state: the `n_unfinished` counters (seeded from
each node's post-freeze `parent_count`), the dispatched-but-unconsumed
units (whose events are the ones that can arrive next), and the trace. -/
structure RunState where
  counters : List Nat
  pending : List Nat
  events : List REvent
  underflow : Bool
deriving DecidableEq

/-- Models `running_node.n_unfinished -= 1; if n_unfinished > 0 continue;
spawn` for one child: decrement the child's counter and dispatch it when
the counter reaches zero. -/
def dispatchChild (st : RunState) (index : Nat) : RunState :=
  let d := st.counters.getD index 0
  let st1 : RunState :=
    { st with counters := st.counters.set index (d - 1),
              underflow := st.underflow || decide (d = 0) }
  if d - 1 = 0 then
    { st1 with pending := st1.pending ++ [index],
               events := st1.events ++ [.dispatch index] }
  else st1

/-- The dispatch phase of one loop iteration: process every child of the
current cursor. -/
def dispatchPhase (st : RunState) (children : List Nat) : RunState :=
  children.foldl dispatchChild st

/-- The children of node `u` in a frozen graph, where `u = node count`
denotes the synthetic root. -/
def FrozenGraph.childrensOf (fz : FrozenGraph) (u : Nat) : List Nat :=
  if u = fz.graph.nodes.length then fz.root.childrens
  else (fz.graph.nodes.getD u Node.dflt).childrens

/-- The name of real node `x`. -/
def FrozenGraph.nameOf (fz : FrozenGraph) (x : Nat) : String :=
  (fz.graph.nodes.getD x Node.dflt).name

/-- What one `run` invocation produces: its return value, its trace, the
completion events still sitting in the channel when `run` returns (one per
dispatched-but-unconsumed unit: the scoped threads are joined before the
return, so each such unit has sent its event, and nothing receives it), and
the underflow flag. -/
structure RunOutcome where
  result : Except Err Unit
  events : List REvent
  leftover : List RunningResult
  underflow : Bool

/-- The main loop of `Scheduler::run` (`for _ in 0..running_nodes.len()`),
fuelled by the remaining iteration count.  Each iteration decrements the
current cursor's children (dispatching those that reach zero) and then
consumes one completion event — the schedule chooses which pending unit's
event arrives; `none` means the schedule was not a possible arrival order.
A `Done` event makes its node the next cursor; an `Error`/`Panic` event
makes `run` return the attributed error immediately (the remaining pending
units' events are left in the channel). -/
def runLoop (fz : FrozenGraph) (outcome : Nat → TaskOutcome) :
    Nat → List Nat → RunState → List Nat → Option RunOutcome
  | 0, _, st, _ =>
    some { result := .ok (), events := st.events,
           leftover := st.pending.map (eventFor outcome), underflow := st.underflow }
  | fuel + 1, children, st, sched =>
    let st1 := dispatchPhase st children
    match sched with
    | [] => none
    | x :: rest =>
      if x ∈ st1.pending then
        let st2 : RunState :=
          { st1 with pending := st1.pending.erase x, events := st1.events ++ [.consume x] }
        match outcome x with
        | .succeeds => runLoop fz outcome fuel (fz.childrensOf x) st2 rest
        | .fails e =>
          some { result := .error (.RuntimeFailed (fz.nameOf x) e), events := st2.events,
                 leftover := st2.pending.map (eventFor outcome), underflow := st2.underflow }
        | .panics p =>
          some { result := .error (.RuntimePanicked (fz.nameOf x) p), events := st2.events,
                 leftover := st2.pending.map (eventFor outcome), underflow := st2.underflow }
      else none

/-- Models `Scheduler::run`: fresh run-scoped counters seeded from the
(post-freeze) `parent_count`s, first cursor the synthetic root, exactly
`N` loop iterations. -/
def FrozenGraph.run (fz : FrozenGraph) (outcome : Nat → TaskOutcome) (sched : List Nat) :
    Option RunOutcome :=
  runLoop fz outcome fz.graph.nodes.length fz.root.childrens
    { counters := fz.graph.nodes.map (fun n => n.parent_count),
      pending := [], events := [], underflow := false } sched

/-- Models `struct Scheduler<C>`: the frozen graph together with the single
completion channel that lives as long as the Scheduler (shared by every
`run` invocation); `channel` is its queued, unconsumed contents. -/
structure Scheduler where
  frozen : FrozenGraph
  channel : List RunningResult
deriving DecidableEq

/-- Models `Scheduler::new`: a fresh channel, initially empty. -/
def Scheduler.new (fz : FrozenGraph) : Scheduler := { frozen := fz, channel := [] }

/-- One `run` invocation at the Scheduler level, for a scheduler whose
channel holds no stale events (as after `Scheduler::new`): the events of
units that were dispatched but whose events were never consumed remain
queued in the scheduler's channel when `run` returns. -/
def Scheduler.runOnce (s : Scheduler) (outcome : Nat → TaskOutcome) (sched : List Nat) :
    Option (Except Err Unit × Scheduler) :=
  match s.frozen.run outcome sched with
  | none => none
  | some out => some (out.result, { s with channel := s.channel ++ out.leftover })

/-! ### Small helper lemmas about `List.getD` -/

theorem getD_set_self {α : Type _} {l : List α} {i : Nat} {a d : α} (h : i < l.length) :
    (l.set i a).getD i d = a := by
  simp [List.getD_eq_getElem?_getD, List.getElem?_set_self', List.getElem?_eq_getElem h]

theorem getD_set_ne {α : Type _} {l : List α} {i j : Nat} {a d : α} (h : i ≠ j) :
    (l.set i a).getD j d = l.getD j d := by
  simp [List.getD_eq_getElem?_getD, List.getElem?_set_ne h]

theorem getD_append_left {α : Type _} {l₁ l₂ : List α} {i : Nat} {d : α} (h : i < l₁.length) :
    (l₁ ++ l₂).getD i d = l₁.getD i d := by
  simp [List.getD_eq_getElem?_getD, List.getElem?_append, h]

theorem getD_append_right {α : Type _} {l₁ l₂ : List α} {i : Nat} {d : α} (h : l₁.length ≤ i) :
    (l₁ ++ l₂).getD i d = l₂.getD (i - l₁.length) d := by
  simp [List.getD_eq_getElem?_getD, List.getElem?_append, Nat.not_lt.mpr h]

theorem getD_map {α β : Type _} {l : List α} {f : α → β} {i : Nat} {d : β} {d' : α}
    (h : i < l.length) : (l.map f).getD i d = f (l.getD i d') := by
  simp [List.getD_eq_getElem?_getD, List.getElem?_map, List.getElem?_eq_getElem h]

theorem getD_mem {α : Type _} {l : List α} {i : Nat} {d : α} (h : i < l.length) :
    l.getD i d ∈ l := by
  rw [List.getD_eq_getElem?_getD, List.getElem?_eq_getElem h]
  exact List.getElem_mem h

theorem getD_default_irrel {α : Type _} {l : List α} {i : Nat} (d₁ d₂ : α)
    (h : i < l.length) : l.getD i d₁ = l.getD i d₂ := by
  simp [List.getD_eq_getElem?_getD, List.getElem?_eq_getElem h]

/-! ### Well-formedness of API-built graphs -/

/-- The (distinct) parents of index `c` in a node list: the indices whose
`childrens` list contains `c`, in index order. -/
def parentsIn (nodes : List Node) (c : Nat) : List Nat :=
  (List.range nodes.length).filter (fun p => decide (c ∈ (nodes.getD p Node.dflt).childrens))

/-- The invariants every graph reachable through `Graph::new` /
`Graph::add_node` / `Graph::add_edge` satisfies (`Graph`'s fields are
`pub(crate)`, so these are the only constructors): the name→index map
mirrors the node list, each node knows its own position, names are
non-empty and distinct, `childrens_set` mirrors `childrens`, child lists
are duplicate-free, in range and self-loop-free, and `parent_count` counts
the distinct parents. -/
def WF (g : Graph) : Prop :=
  g.nodes_indices = g.nodes.map (fun n => (n.name, n.index)) ∧
  (∀ k, k < g.nodes.length → (g.nodes.getD k Node.dflt).index = k) ∧
  (∀ n ∈ g.nodes, n.name ≠ "") ∧
  (g.nodes.map (fun n => n.name)).Nodup ∧
  (∀ n ∈ g.nodes, n.childrens_set = n.childrens) ∧
  (∀ n ∈ g.nodes, n.childrens.Nodup) ∧
  (∀ n ∈ g.nodes, ∀ c ∈ n.childrens, c < g.nodes.length ∧ c ≠ n.index) ∧
  (∀ c, c < g.nodes.length → (g.nodes.getD c Node.dflt).parent_count = (parentsIn g.nodes c).length)

instance (g : Graph) : Decidable (WF g) := by
  unfold WF
  exact inferInstance

theorem wf_new : WF Graph.new := by
  refine ⟨rfl, ?_, ?_, ?_, ?_, ?_, ?_, ?_⟩ <;> simp [Graph.new]

/-- A successful name lookup returns an in-range index whose node carries
that name (on a well-formed graph). -/
theorem indexOfName_spec {g : Graph} (hwf : WF g) {name : String} {k : Nat}
    (h : g.indexOfName name = some k) :
    k < g.nodes.length ∧ (g.nodes.getD k Node.dflt).name = name := by
  obtain ⟨hmap, hidx, -, -, -, -, -, -⟩ := hwf
  unfold Graph.indexOfName at h
  cases hfind : g.nodes_indices.find? (fun p => p.1 = name) with
  | none => rw [hfind] at h; simp at h
  | some p =>
    rw [hfind] at h
    simp at h
    have hp := List.find?_some hfind
    have hmem := List.mem_of_find?_eq_some hfind
    rw [hmap] at hmem
    obtain ⟨n, hn, hpair⟩ := List.mem_map.mp hmem
    obtain ⟨j, hj, hget⟩ := List.getElem_of_mem hn
    have hgetD : g.nodes.getD j Node.dflt = n := by
      simp [List.getD_eq_getElem?_getD, List.getElem?_eq_getElem hj, hget]
    have hnj : n.index = j := by
      have := hidx j hj
      rw [hgetD] at this
      exact this
    have hname : n.name = name := by
      have : p.1 = name := by simpa using hp
      rw [← hpair] at this
      exact this
    subst h
    rw [← hpair]
    simp [hnj, hgetD, hname, hj, hget]

/-- Failed name lookup means no node carries the name. -/
theorem indexOfName_none {g : Graph} (hwf : WF g) {name : String}
    (h : g.indexOfName name = none) : ∀ n ∈ g.nodes, n.name ≠ name := by
  obtain ⟨hmap, -, -, -, -, -, -, -⟩ := hwf
  intro n hn hname
  unfold Graph.indexOfName at h
  cases hfind : g.nodes_indices.find? (fun p => p.1 = name) with
  | some p => rw [hfind] at h; simp at h
  | none =>
    have : (n.name, n.index) ∈ g.nodes_indices := by
      rw [hmap]; exact List.mem_map.mpr ⟨n, hn, rfl⟩
    have := List.find?_eq_none.mp hfind _ this
    simp [hname] at this

/-- Distinct names look up to distinct indices (on a well-formed graph). -/
theorem indexOfName_inj {g : Graph} (hwf : WF g) {a b : String} {ka kb : Nat}
    (hne : a ≠ b) (ha : g.indexOfName a = some ka) (hb : g.indexOfName b = some kb) :
    ka ≠ kb := by
  obtain ⟨hka, hna⟩ := indexOfName_spec hwf ha
  obtain ⟨hkb, hnb⟩ := indexOfName_spec hwf hb
  intro heq
  subst heq
  exact hne (hna ▸ hnb ▸ rfl)

/-- Exact characterisation of a successful `add_node`. -/
theorem add_node_ok_iff {g g' : Graph} {name : String} :
    g.add_node name = .ok g' ↔
      name ≠ "" ∧ g.indexOfName name = none ∧
      g' = { nodes := g.nodes ++ [Node.new g.nodes.length name],
             nodes_indices := g.nodes_indices ++ [(name, g.nodes.length)] } := by
  unfold Graph.add_node
  split_ifs with h1 h2
  · simp [h1]
  · rw [Option.isSome_iff_ne_none] at h2
    constructor
    · intro h; simp at h
    · rintro ⟨-, hnone, -⟩; exact absurd hnone h2
  · rw [Option.not_isSome_iff_eq_none] at h2
    constructor
    · intro h
      simp only [Except.ok.injEq] at h
      exact ⟨h1, h2, h.symm⟩
    · rintro ⟨-, -, rfl⟩; rfl

/-- `parentsIn` is unchanged by appending a childless node, for indices of
the original list. -/
theorem parentsIn_append_childless {nodes : List Node} {z : Node} (hz : z.childrens = [])
    (c : Nat) : parentsIn (nodes ++ [z]) c = parentsIn nodes c := by
  unfold parentsIn
  rw [List.length_append, List.length_cons, List.length_nil, List.range_succ,
    List.filter_append]
  have h1 : List.filter (fun p => decide (c ∈ ((nodes ++ [z]).getD p Node.dflt).childrens))
      (List.range nodes.length)
      = List.filter (fun p => decide (c ∈ (nodes.getD p Node.dflt).childrens))
        (List.range nodes.length) := by
    apply List.filter_congr
    intro p hp
    rw [getD_append_left (List.mem_range.mp hp)]
  have h2 : List.filter (fun p => decide (c ∈ ((nodes ++ [z]).getD p Node.dflt).childrens))
      [nodes.length] = [] := by
    simp [getD_append_right (le_refl nodes.length), hz]
  rw [h1, h2, List.append_nil]

/-- `add_node` preserves well-formedness. -/
theorem wf_add_node {g g' : Graph} {name : String} (hwf : WF g)
    (h : g.add_node name = .ok g') : WF g' := by
  rw [add_node_ok_iff] at h
  obtain ⟨hne, hnone, rfl⟩ := h
  obtain ⟨hmap, hidx, hnames, hnodup, hset, hcnodup, hcrange, hpc⟩ := hwf
  refine ⟨?_, ?_, ?_, ?_, ?_, ?_, ?_, ?_⟩
  · simp [hmap, Node.new]
  · intro k hk
    simp only [List.length_append, List.length_cons, List.length_nil] at hk
    rcases Nat.lt_or_ge k g.nodes.length with hlt | hge
    · rw [getD_append_left hlt]; exact hidx k hlt
    · have hk' : k = g.nodes.length := by omega
      subst hk'
      rw [getD_append_right (le_refl _)]
      simp [Node.new]
  · intro n hn
    rcases List.mem_append.mp hn with hmem | hmem
    · exact hnames n hmem
    · simp only [List.mem_singleton] at hmem
      subst hmem
      simpa [Node.new] using hne
  · rw [List.map_append]
    refine List.Nodup.append hnodup (by simp) ?_
    intro a ha hb
    simp only [List.map_cons, List.map_nil, List.mem_singleton, Node.new] at hb
    subst hb
    obtain ⟨n, hn, heq⟩ := List.mem_map.mp ha
    exact indexOfName_none ⟨hmap, hidx, hnames, hnodup, hset, hcnodup, hcrange, hpc⟩
      hnone n hn heq
  · intro n hn
    rcases List.mem_append.mp hn with hmem | hmem
    · exact hset n hmem
    · simp only [List.mem_singleton] at hmem; subst hmem; rfl
  · intro n hn
    rcases List.mem_append.mp hn with hmem | hmem
    · exact hcnodup n hmem
    · simp only [List.mem_singleton] at hmem; subst hmem; simp [Node.new]
  · intro n hn c hc
    rcases List.mem_append.mp hn with hmem | hmem
    · obtain ⟨hlt, hne'⟩ := hcrange n hmem c hc
      exact ⟨by simp only [List.length_append, List.length_cons, List.length_nil]; omega, hne'⟩
    · simp only [List.mem_singleton] at hmem; subst hmem; simp [Node.new] at hc
  · intro c hc
    simp only [List.length_append, List.length_cons, List.length_nil] at hc
    rw [parentsIn_append_childless (by simp [Node.new]) c]
    rcases Nat.lt_or_ge c g.nodes.length with hlt | hge
    · rw [getD_append_left hlt]
      exact hpc c hlt
    · have hc' : c = g.nodes.length := by omega
      subst hc'
      rw [getD_append_right (le_refl _)]
      simp only [Nat.sub_self]
      have : parentsIn g.nodes g.nodes.length = [] := by
        unfold parentsIn
        rw [List.filter_eq_nil_iff]
        intro p hp
        simp only [decide_eq_true_eq]
        intro hmem
        have hplt := List.mem_range.mp hp
        have := (hcrange _ (getD_mem hplt) _ hmem).1
        omega
      simp [this, Node.new]

/-- Mapping over a point update is the identity when the projection does
not change at that point. -/
theorem map_set_eq {α β : Type _} {f : α → β} {l : List α} {i : Nat} {x : α}
    (h : i < l.length) (hf : f x = f (l.getD i x)) : (l.set i x).map f = l.map f := by
  apply List.ext_getElem?
  intro n
  by_cases hn : n = i
  · subst hn
    simp [List.getElem?_map, List.getElem?_set_self', List.getElem?_eq_getElem h,
      List.getD_eq_getElem?_getD] at hf ⊢
    exact hf
  · simp [List.getElem?_map, List.getElem?_set_ne (fun hh => hn hh.symm)]

/-- Counting: if `q` agrees with `p` except at one list element where it
flips `false` to `true`, the filter grows by exactly one. -/
theorem filter_length_flip_one {l : List Nat} (hnd : l.Nodup) {p q : Nat → Bool} {i : Nat}
    (hi : i ∈ l) (hpi : p i = false) (hqi : q i = true)
    (hagree : ∀ x ∈ l, x ≠ i → p x = q x) :
    (l.filter q).length = (l.filter p).length + 1 := by
  induction l with
  | nil => simp at hi
  | cons a t ih =>
    have hndt : t.Nodup := hnd.of_cons
    have hanot : a ∉ t := (List.nodup_cons.mp hnd).1
    by_cases ha : a = i
    · subst ha
      have ht : List.filter q t = List.filter p t := by
        apply List.filter_congr
        intro x hx
        exact (hagree x (List.mem_cons_of_mem _ hx) (fun hxa => hanot (hxa ▸ hx))).symm
      simp [List.filter_cons, hpi, hqi, ht]
    · have hit : i ∈ t := by
        rcases List.mem_cons.mp hi with h | h
        · exact absurd h.symm ha
        · exact h
      have hpa : p a = q a := hagree a (List.mem_cons_self a t) ha
      rw [List.filter_cons, List.filter_cons, ← hpa]
      cases hcase : p a <;>
        simp [ih hndt hit (fun x hx hxi => hagree x (List.mem_cons_of_mem _ hx) hxi)]

/-- Exact characterisation of a successful `add_edge` on a well-formed
graph: both endpoints resolve to distinct in-range indices, the edge is
new, and exactly the two endpoint nodes are updated (set-insert and child
append on the source, `parent_count` increment on the target). -/
theorem add_edge_ok_char {g g' : Graph} {a b : String} (hwf : WF g)
    (h : g.add_edge a b = .ok g') :
    ∃ pi ci,
      g.indexOfName a = some pi ∧ g.indexOfName b = some ci ∧
      a ≠ "" ∧ b ≠ "" ∧ a ≠ b ∧ pi ≠ ci ∧ pi < g.nodes.length ∧ ci < g.nodes.length ∧
      ci ∉ (g.nodes.getD pi Node.dflt).childrens_set ∧
      g'.nodes_indices = g.nodes_indices ∧
      g'.nodes = (g.nodes.set pi
          { g.nodes.getD pi Node.dflt with
              childrens_set := (g.nodes.getD pi Node.dflt).childrens_set ++ [ci],
              childrens := (g.nodes.getD pi Node.dflt).childrens ++ [ci] }).set ci
          { g.nodes.getD ci Node.dflt with
              parent_count := (g.nodes.getD ci Node.dflt).parent_count + 1 } := by
  unfold Graph.add_edge at h
  rcases Decidable.em (a = "" ∨ b = "" ∨ a = b) with h1 | h1
  · rw [if_pos h1] at h; simp at h
  · rw [if_neg h1] at h
    push_neg at h1
    obtain ⟨ha, hb, hab⟩ := h1
    cases hpa : g.indexOfName a with
    | none => rw [hpa] at h; simp at h
    | some pi =>
      cases hpb : g.indexOfName b with
      | none => rw [hpa, hpb] at h; simp at h
      | some ci =>
        rw [hpa, hpb] at h
        dsimp only at h
        obtain ⟨hpilt, -⟩ := indexOfName_spec hwf hpa
        obtain ⟨hcilt, -⟩ := indexOfName_spec hwf hpb
        have hci_idx : (g.nodes.getD ci Node.dflt).index = ci := hwf.2.1 ci hcilt
        have hpici : pi ≠ ci := indexOfName_inj hwf hab hpa hpb
        unfold Graph.add_child at h
        rcases Decidable.em ((g.nodes.getD ci Node.dflt).index ∈
            (g.nodes.getD pi Node.dflt).childrens_set) with h2 | h2
        · rw [if_pos h2] at h; simp at h
        · rw [if_neg h2] at h
          simp only [Except.ok.injEq] at h
          rw [hci_idx] at h2
          refine ⟨pi, ci, rfl, rfl, ha, hb, hab, hpici, hpilt, hcilt, h2, ?_, ?_⟩
          · rw [← h]
          · rw [← h]
            simp only [hci_idx]

/-- `add_edge` preserves well-formedness. -/
theorem wf_add_edge {g g' : Graph} {a b : String} (hwf : WF g)
    (h : g.add_edge a b = .ok g') : WF g' := by
  obtain ⟨pi, ci, hpa, hpb, ha, hb, hab, hpici, hpilt, hcilt, hdup, hindices, hnodes⟩ :=
    add_edge_ok_char hwf h
  obtain ⟨hmap, hidx, hnames, hnodup, hset, hcnodup, hcrange, hpc⟩ := hwf
  set P := g.nodes.getD pi Node.dflt with hP
  set C := g.nodes.getD ci Node.dflt with hC
  set P' : Node :=
    { P with childrens_set := P.childrens_set ++ [ci], childrens := P.childrens ++ [ci] }
    with hP'
  set C' : Node := { C with parent_count := C.parent_count + 1 } with hC'
  have hPmem : P ∈ g.nodes := getD_mem hpilt
  have hCmem : C ∈ g.nodes := getD_mem hcilt
  have hPidx : P.index = pi := hidx pi hpilt
  have hCidx : C.index = ci := hidx ci hcilt
  have hlen : g'.nodes.length = g.nodes.length := by
    rw [hnodes]; simp
  have hcipf : ci < (g.nodes.set pi P').length := by simp; omega
  have hgetD_ci : g'.nodes.getD ci Node.dflt = C' := by
    rw [hnodes]; exact getD_set_self hcipf
  have hgetD_pi : g'.nodes.getD pi Node.dflt = P' := by
    rw [hnodes, getD_set_ne (fun hh => hpici hh.symm), getD_set_self hpilt]
  have hgetD_other : ∀ k, k ≠ pi → k ≠ ci → g'.nodes.getD k Node.dflt =
      g.nodes.getD k Node.dflt := by
    intro k hkpi hkci
    rw [hnodes, getD_set_ne (fun hh => hkci hh.symm), getD_set_ne (fun hh => hkpi hh.symm)]
  have hmap_proj : ∀ {β : Type} (f : Node → β), f P' = f P → f C' = f C →
      g'.nodes.map f = g.nodes.map f := by
    intro β f hfP hfC
    have e1 : (g.nodes.set pi P').getD ci C' = C := by
      rw [getD_set_ne hpici, getD_default_irrel C' Node.dflt hcilt]
    have e2 : g.nodes.getD pi P' = P := by
      rw [getD_default_irrel P' Node.dflt hpilt]
    rw [hnodes, map_set_eq hcipf (by rw [e1]; exact hfC),
      map_set_eq hpilt (by rw [e2]; exact hfP)]
  have hmem_decomp : ∀ n ∈ g'.nodes, n = P' ∨ n = C' ∨ n ∈ g.nodes := by
    intro n hn
    rw [hnodes] at hn
    rcases List.mem_or_eq_of_mem_set hn with hn1 | hn1
    · rcases List.mem_or_eq_of_mem_set hn1 with hn2 | hn2
      · exact Or.inr (Or.inr hn2)
      · exact Or.inl hn2
    · exact Or.inr (Or.inl hn1)
  have hciP : ci ∉ P.childrens := by rw [← hset P hPmem]; exact hdup
  refine ⟨?_, ?_, ?_, ?_, ?_, ?_, ?_, ?_⟩
  · rw [hindices, hmap]
    exact (hmap_proj (fun n => (n.name, n.index)) rfl rfl).symm
  · intro k hk
    rw [hlen] at hk
    by_cases hkpi : k = pi
    · subst hkpi; rw [hgetD_pi]; exact hPidx
    · by_cases hkci : k = ci
      · subst hkci; rw [hgetD_ci]; exact hCidx
      · rw [hgetD_other k hkpi hkci]; exact hidx k hk
  · intro n hn
    rcases hmem_decomp n hn with rfl | hn1
    · exact hnames P hPmem
    · rcases hn1 with rfl | hn2
      · exact hnames C hCmem
      · exact hnames n hn2
  · have : g'.nodes.map (fun n => n.name) = g.nodes.map (fun n => n.name) :=
      hmap_proj (fun n => n.name) rfl rfl
    rw [this]; exact hnodup
  · intro n hn
    rcases hmem_decomp n hn with rfl | hn1
    · show P.childrens_set ++ [ci] = P.childrens ++ [ci]
      rw [hset P hPmem]
    · rcases hn1 with rfl | hn2
      · exact hset C hCmem
      · exact hset n hn2
  · intro n hn
    rcases hmem_decomp n hn with rfl | hn1
    · show (P.childrens ++ [ci]).Nodup
      refine List.Nodup.append (hcnodup P hPmem) (by simp) ?_
      intro x hx hx'
      simp only [List.mem_singleton] at hx'
      subst hx'
      exact hciP hx
    · rcases hn1 with rfl | hn2
      · exact hcnodup C hCmem
      · exact hcnodup n hn2
  · intro n hn c hc
    rw [hlen]
    rcases hmem_decomp n hn with rfl | hn1
    · rcases List.mem_append.mp hc with hc1 | hc1
      · obtain ⟨h1, h2⟩ := hcrange P hPmem c hc1
        exact ⟨h1, h2⟩
      · simp only [List.mem_singleton] at hc1
        subst hc1
        refine ⟨hcilt, ?_⟩
        show c ≠ P'.index
        rw [show P'.index = P.index from rfl, hPidx]
        exact fun hh => hpici hh.symm
    · rcases hn1 with rfl | hn2
      · exact hcrange C hCmem c hc
      · exact hcrange n hn2 c hc
  · intro c hc
    rw [hlen] at hc
    have hrange_eq : ∀ p, p ≠ pi →
        (g'.nodes.getD p Node.dflt).childrens = (g.nodes.getD p Node.dflt).childrens := by
      intro p hppi
      by_cases hpci : p = ci
      · subst hpci; rw [hgetD_ci]
      · rw [hgetD_other p hppi hpci]
    by_cases hcci : c = ci
    · subst hcci
      rw [hgetD_ci]
      show C.parent_count + 1 = (parentsIn g'.nodes c).length
      have hp_false :
          (fun p => decide (c ∈ (g.nodes.getD p Node.dflt).childrens)) pi = false := by
        simp only [decide_eq_false_iff_not]
        rw [← hP]
        exact hciP
      have hq_true :
          (fun p => decide (c ∈ (g'.nodes.getD p Node.dflt).childrens)) pi = true := by
        simp only [decide_eq_true_eq]
        rw [hgetD_pi]
        show c ∈ P.childrens ++ [c]
        simp
      have hagree : ∀ x ∈ List.range g.nodes.length, x ≠ pi →
          (fun p => decide (c ∈ (g.nodes.getD p Node.dflt).childrens)) x =
          (fun p => decide (c ∈ (g'.nodes.getD p Node.dflt).childrens)) x := by
        intro x _ hxpi
        simp only []
        rw [hrange_eq x hxpi]
      have hflip : (parentsIn g'.nodes c).length = (parentsIn g.nodes c).length + 1 := by
        unfold parentsIn
        rw [hlen]
        exact filter_length_flip_one (List.nodup_range _) (List.mem_range.mpr hpilt)
          hp_false hq_true hagree
      rw [hflip, ← hpc c hc, ← hC]
    · have hfilter : parentsIn g'.nodes c = parentsIn g.nodes c := by
        unfold parentsIn
        rw [hlen]
        apply List.filter_congr
        intro p hp
        by_cases hppi : p = pi
        · subst hppi
          rw [hgetD_pi]
          show decide (c ∈ P.childrens ++ [ci]) = decide (c ∈ P.childrens)
          simp [List.mem_append, hcci]
        · rw [hrange_eq p hppi]
      rw [hfilter]
      by_cases hcpi : c = pi
      · subst hcpi
        rw [hgetD_pi]
        show P.parent_count = (parentsIn g.nodes c).length
        rw [← hpc c hc, ← hP]
      · rw [hgetD_other c hcpi hcci]
        exact hpc c hc

/-- Graphs reachable through the public construction API (the only way to
obtain a `Graph` value: its fields are `pub(crate)`). -/
inductive Built : Graph → Prop where
  | new : Built Graph.new
  | add_node {g g' : Graph} {name : String} : Built g → g.add_node name = .ok g' → Built g'
  | add_edge {g g' : Graph} {a b : String} : Built g → g.add_edge a b = .ok g' → Built g'

/-- Every API-built graph is well-formed. -/
theorem built_wf {g : Graph} (h : Built g) : WF g := by
  induction h with
  | new => exact wf_new
  | add_node _ hok ih => exact wf_add_node ih hok
  | add_edge _ hok ih => exact wf_add_edge ih hok

/-! ### Characterisation of the freeze initialisation loop -/

/-- The indices whose `parent_count` is zero at freeze time, in insertion
order. -/
def zeroIndices (g : Graph) : List Nat :=
  (List.range g.nodes.length).filter
    (fun i => decide ((g.nodes.getD i Node.dflt).parent_count = 0))

/-- What the freeze initialisation does to one node. -/
def bumpNode (n : Node) : Node :=
  if n.parent_count = 0 then { n with parent_count := n.parent_count + 1 } else n

theorem frozeInit_go (g : Graph) (hwf : WF g) :
    ∀ (l : List Nat) (root : Node) (gg : Graph) (q : List Nat),
      l.Nodup → (∀ i ∈ l, i < g.nodes.length) →
      (∀ i ∈ l, gg.nodes.getD i Node.dflt = g.nodes.getD i Node.dflt) →
      (∀ i ∈ l, i ∉ root.childrens_set) →
      root.childrens = q → root.childrens_set = q →
      gg.nodes.length = g.nodes.length →
      (let st := l.foldl (frozeInitStep (g.nodes.map (fun n => n.parent_count))) (root, gg, q)
       let F := l.filter (fun i => decide ((g.nodes.getD i Node.dflt).parent_count = 0))
       st.1.index = root.index ∧ st.1.name = root.name ∧
       st.1.parent_count = root.parent_count ∧
       st.1.childrens = q ++ F ∧ st.1.childrens_set = q ++ F ∧
       st.2.2 = q ++ F ∧
       st.2.1.nodes.length = g.nodes.length ∧
       st.2.1.nodes_indices = gg.nodes_indices ∧
       (∀ k, k ∉ l → st.2.1.nodes.getD k Node.dflt = gg.nodes.getD k Node.dflt) ∧
       (∀ k ∈ l, st.2.1.nodes.getD k Node.dflt = bumpNode (g.nodes.getD k Node.dflt))) := by
  intro l
  induction l with
  | nil =>
    intro root gg q _ _ _ _ hrc hrs hglen
    refine ⟨rfl, rfl, rfl, ?_, ?_, ?_, hglen, rfl, fun k _ => rfl, fun k hk => absurd hk
      (List.not_mem_nil k)⟩
    · simpa using hrc
    · simpa using hrs
    · simp
  | cons i t ih =>
    intro root gg q hnd hlt huntouched hnotin hrc hrs hglen
    have hilt : i < g.nodes.length := hlt i (List.mem_cons_self i t)
    have hgdi : gg.nodes.getD i Node.dflt = g.nodes.getD i Node.dflt :=
      huntouched i (List.mem_cons_self i t)
    have hit : i ∉ t := (List.nodup_cons.mp hnd).1
    have hndt : t.Nodup := (List.nodup_cons.mp hnd).2
    have hind : (g.nodes.map (fun n => n.parent_count)).getD i 0 =
        (g.nodes.getD i Node.dflt).parent_count := getD_map hilt
    rw [List.foldl_cons]
    by_cases hzero : (g.nodes.getD i Node.dflt).parent_count = 0
    · -- zero in-degree: root gains child i, node i's parent_count is bumped
      have hstep : frozeInitStep (g.nodes.map (fun n => n.parent_count)) (root, gg, q) i =
          ({ root with childrens_set := root.childrens_set ++ [i],
                       childrens := root.childrens ++ [i] },
           { gg with nodes := gg.nodes.set i ({ (gg.nodes.getD i Node.dflt) with parent_count := (gg.nodes.getD i Node.dflt).parent_count + 1 }) },
           q ++ [i]) := by
        unfold frozeInitStep
        rw [if_pos (by rw [hind]; exact hzero)]
        unfold Graph.add_child
        rw [if_neg ?hc]
        case hc =>
          have : (gg.nodes.getD i Node.dflt).index = i := by
            rw [hgdi]; exact hwf.2.1 i hilt
          rw [this]
          exact hnotin i (List.mem_cons_self i t)
        have : (gg.nodes.getD i Node.dflt).index = i := by
          rw [hgdi]; exact hwf.2.1 i hilt
        simp only [this]
      rw [hstep]
      have h1 : ∀ j ∈ t, ({ gg with nodes := gg.nodes.set i ({ (gg.nodes.getD i Node.dflt) with parent_count := (gg.nodes.getD i Node.dflt).parent_count + 1 }) } : Graph).nodes.getD j Node.dflt = g.nodes.getD j Node.dflt := by
        intro j hj
        dsimp only
        rw [getD_set_ne (show i ≠ j from fun hh => hit (by rw [hh]; exact hj))]
        exact huntouched j (List.mem_cons_of_mem _ hj)
      have h2 : ∀ j ∈ t, j ∉ ({ root with childrens_set := root.childrens_set ++ [i], childrens := root.childrens ++ [i] } : Node).childrens_set := by
        intro j hj
        dsimp only
        rw [List.mem_append]
        rintro (hj1 | hj1)
        · exact hnotin j (List.mem_cons_of_mem _ hj) hj1
        · simp only [List.mem_singleton] at hj1
          exact hit (hj1 ▸ hj)
      have h3 : ({ root with childrens_set := root.childrens_set ++ [i], childrens := root.childrens ++ [i] } : Node).childrens = q ++ [i] := by
        dsimp only; rw [hrc]
      have h4 : ({ root with childrens_set := root.childrens_set ++ [i], childrens := root.childrens ++ [i] } : Node).childrens_set = q ++ [i] := by
        dsimp only; rw [hrs]
      have h5 : ({ gg with nodes := gg.nodes.set i ({ (gg.nodes.getD i Node.dflt) with parent_count := (gg.nodes.getD i Node.dflt).parent_count + 1 }) } : Graph).nodes.length = g.nodes.length := by
        simp [hglen]
      have hres := ih ({ root with childrens_set := root.childrens_set ++ [i], childrens := root.childrens ++ [i] })
        ({ gg with nodes := gg.nodes.set i ({ (gg.nodes.getD i Node.dflt) with parent_count := (gg.nodes.getD i Node.dflt).parent_count + 1 }) })
        (q ++ [i]) hndt (fun j hj => hlt j (List.mem_cons_of_mem _ hj)) h1 h2 h3 h4 h5
      obtain ⟨e1, e2, e3, e4, e5, e6, e7, e8, e9, e10⟩ := hres
      have hF : (i :: t).filter
          (fun j => decide ((g.nodes.getD j Node.dflt).parent_count = 0)) =
          i :: t.filter (fun j => decide ((g.nodes.getD j Node.dflt).parent_count = 0)) := by
        have hpredi : decide ((g.nodes.getD i Node.dflt).parent_count = 0) = true :=
          decide_eq_true hzero
        rw [List.filter_cons, if_pos hpredi]
      refine ⟨e1, e2, e3, ?_, ?_, ?_, e7, e8, ?_, ?_⟩
      · rw [e4, hF]; simp
      · rw [e5, hF]; simp
      · rw [e6, hF]; simp
      · intro k hk
        have hkt : k ∉ t := fun hh => hk (List.mem_cons_of_mem _ hh)
        have hki : k ≠ i := fun hh => hk (hh ▸ List.mem_cons_self i t)
        rw [e9 k hkt]
        show (gg.nodes.set i _).getD k Node.dflt = _
        rw [getD_set_ne (fun hh => hki hh.symm)]
      · intro k hk
        rcases List.mem_cons.mp hk with hk1 | hk1
        · subst hk1
          rw [e9 k hit]
          show (gg.nodes.set k _).getD k Node.dflt = _
          rw [getD_set_self (by rw [hglen]; exact hilt)]
          unfold bumpNode
          rw [if_pos hzero, hgdi]
        · exact e10 k hk1
    · -- non-zero in-degree: the step is a no-op for this index
      have hstep : frozeInitStep (g.nodes.map (fun n => n.parent_count)) (root, gg, q) i =
          (root, gg, q) := by
        unfold frozeInitStep
        rw [if_neg (by rw [hind]; exact hzero)]
      rw [hstep]
      have hres := ih root gg q hndt (fun j hj => hlt j (List.mem_cons_of_mem _ hj))
        (fun j hj => huntouched j (List.mem_cons_of_mem _ hj))
        (fun j hj => hnotin j (List.mem_cons_of_mem _ hj)) hrc hrs hglen
      obtain ⟨e1, e2, e3, e4, e5, e6, e7, e8, e9, e10⟩ := hres
      have hF : (i :: t).filter
          (fun j => decide ((g.nodes.getD j Node.dflt).parent_count = 0)) =
          t.filter (fun j => decide ((g.nodes.getD j Node.dflt).parent_count = 0)) := by
        have hpredi : decide ((g.nodes.getD i Node.dflt).parent_count = 0) = false :=
          decide_eq_false hzero
        rw [List.filter_cons, if_neg (by rw [hpredi]; simp)]
      refine ⟨e1, e2, e3, ?_, ?_, ?_, e7, e8, ?_, ?_⟩
      · rw [e4, hF]
      · rw [e5, hF]
      · rw [e6, hF]
      · intro k hk
        exact e9 k (fun hh => hk (List.mem_cons_of_mem _ hh))
      · intro k hk
        rcases List.mem_cons.mp hk with hk1 | hk1
        · subst hk1
          rw [e9 k hit]
          unfold bumpNode
          rw [if_neg hzero, hgdi]
        · exact e10 k hk1

/-- Characterisation of `frozeInit` on a well-formed graph: the root is the
fresh node `index = N`, `name = "$ROOT"` whose (ordered, duplicate-free)
children are exactly the zero-`parent_count` indices; the queue is that
same list; and the graph is returned with exactly those nodes'
`parent_count` bumped by one. -/
theorem frozeInit_spec {g : Graph} (hwf : WF g) :
    (frozeInit g).1 = { index := g.nodes.length, name := "$ROOT", parent_count := 0,
                        childrens := zeroIndices g, childrens_set := zeroIndices g } ∧
    (frozeInit g).2.2 = zeroIndices g ∧
    (frozeInit g).2.1.nodes.length = g.nodes.length ∧
    (frozeInit g).2.1.nodes_indices = g.nodes_indices ∧
    (∀ k, (frozeInit g).2.1.nodes.getD k Node.dflt =
      if k < g.nodes.length then bumpNode (g.nodes.getD k Node.dflt) else Node.dflt) := by
  have hres := frozeInit_go g hwf (List.range g.nodes.length)
    (Node.new g.nodes.length "$ROOT") g [] (List.nodup_range _)
    (fun i hi => List.mem_range.mp hi) (fun i _ => rfl) (by simp [Node.new]) rfl rfl rfl
  obtain ⟨e1, e2, e3, e4, e5, e6, e7, e8, e9, e10⟩ := hres
  have hF : (List.range g.nodes.length).filter
      (fun i => decide ((g.nodes.getD i Node.dflt).parent_count = 0)) = zeroIndices g := rfl
  refine ⟨?_, ?_, e7, e8, ?_⟩
  · have : (frozeInit g).1 =
        { index := (frozeInit g).1.index, name := (frozeInit g).1.name,
          parent_count := (frozeInit g).1.parent_count,
          childrens := (frozeInit g).1.childrens,
          childrens_set := (frozeInit g).1.childrens_set } := rfl
    rw [this]
    unfold frozeInit
    rw [e1, e2, e3, e4, e5]
    simp [Node.new, hF, zeroIndices]
  · show (frozeInit g).2.2 = zeroIndices g
    unfold frozeInit
    rw [e6]
    simp only [List.nil_append]
    exact hF
  · intro k
    by_cases hk : k < g.nodes.length
    · rw [if_pos hk]
      exact e10 k (List.mem_range.mpr hk)
    · rw [if_neg hk]
      have h1 : (frozeInit g).2.1.nodes.getD k Node.dflt = g.nodes.getD k Node.dflt := by
        unfold frozeInit
        exact e9 k (fun hh => hk (List.mem_range.mp hh))
      rw [h1, List.getD_eq_getElem?_getD, List.getElem?_eq_none (by omega)]
      rfl

/-! ### The Kahn loop invariant -/

theorem nodup_getD_not_mem_take {l : List Nat} (hnd : l.Nodup) {i : Nat} (h : i < l.length) :
    l.getD i 0 ∉ l.take i := by
  intro hmem
  obtain ⟨j, hj, hval⟩ := List.getElem_of_mem hmem
  rw [List.length_take] at hj
  have hji : j < i := lt_of_lt_of_le (lt_min_iff.mp hj).1 (le_refl i)
  have hj2 : j < (l.take i).length := by rw [List.length_take]; exact hj
  have hj3 : j < l.length := by omega
  have h1 : (l.take i)[j] = l[j] := @List.getElem_take _ l i j hj2
  have h2 : l.getD i 0 = l[i] := by simp [List.getD_eq_getElem?_getD, List.getElem?_eq_getElem h]
  rw [h1, h2] at hval
  have := (List.Nodup.getElem_inj_iff hnd).mp hval
  omega

theorem nodup_lt_full {l : List Nat} {n : Nat} (hnd : l.Nodup) (hlt : ∀ x ∈ l, x < n)
    (hlen : n ≤ l.length) : ∀ i, i < n → i ∈ l := by
  intro i hi
  have hsub : l.toFinset ⊆ Finset.range n := by
    intro x hx
    exact Finset.mem_range.mpr (hlt x (List.mem_toFinset.mp hx))
  have hcard : (Finset.range n).card ≤ l.toFinset.card := by
    rw [Finset.card_range, List.toFinset_card_of_nodup hnd]
    exact hlen
  have heq := Finset.eq_of_subset_of_card_le hsub hcard
  have : i ∈ l.toFinset := by rw [heq]; exact Finset.mem_range.mpr hi
  exact List.mem_toFinset.mp this

theorem nodup_length_le {l : List Nat} {n : Nat} (hnd : l.Nodup) (hlt : ∀ x ∈ l, x < n) :
    l.length ≤ n := by
  have hsub : l.toFinset ⊆ Finset.range n := by
    intro x hx
    exact Finset.mem_range.mpr (hlt x (List.mem_toFinset.mp hx))
  have := Finset.card_le_card hsub
  rw [Finset.card_range, List.toFinset_card_of_nodup hnd] at this
  exact this

theorem filter_length_lt {l : List Nat} {p : Nat → Bool} {a : Nat} (ha : a ∈ l)
    (hpa : p a = false) : (l.filter p).length < l.length := by
  rcases Nat.lt_or_ge (l.filter p).length l.length with h | h
  · exact h
  · exfalso
    have heq : l.filter p = l :=
      (List.filter_sublist l).eq_of_length (le_antisymm (List.length_filter_le _ _) h)
    have := List.filter_eq_self.mp heq a ha
    rw [hpa] at this
    exact Bool.false_ne_true this

theorem mem_parentsIn {nodes : List Node} {p c : Nat} :
    p ∈ parentsIn nodes c ↔ p < nodes.length ∧ c ∈ (nodes.getD p Node.dflt).childrens := by
  simp [parentsIn, List.mem_filter, List.mem_range]

theorem parentsIn_nodup (nodes : List Node) (c : Nat) : (parentsIn nodes c).Nodup :=
  (List.nodup_range _).filter _

/-- `bumpNode` changes only `parent_count`. -/
theorem bumpNode_childrens (n : Node) : (bumpNode n).childrens = n.childrens := by
  unfold bumpNode; split <;> rfl

theorem bumpNode_name (n : Node) : (bumpNode n).name = n.name := by
  unfold bumpNode; split <;> rfl

theorem bumpNode_index (n : Node) : (bumpNode n).index = n.index := by
  unfold bumpNode; split <;> rfl

/-- The freeze initialisation does not change any node's child list. -/
theorem frozen_childrens_eq {g : Graph} (hwf : WF g) (k : Nat) :
    ((frozeInit g).2.1.nodes.getD k Node.dflt).childrens =
      (g.nodes.getD k Node.dflt).childrens := by
  obtain ⟨-, -, -, -, hnodes⟩ := frozeInit_spec hwf
  rw [hnodes k]
  by_cases hk : k < g.nodes.length
  · rw [if_pos hk, bumpNode_childrens]
  · rw [if_neg hk]
    rw [List.getD_eq_getElem?_getD, List.getElem?_eq_none (by omega)]
    rfl

/-- The processed prefix of the Kahn queue. -/
def kprocessed (st : KahnState) : List Nat := st.queue.take st.queue_i

/-- The invariant of the Kahn while-loop over (the freeze-mutated copy of)
a well-formed graph `g`: counters complement the processed parents, the
queue holds exactly the nodes all of whose parents are processed, and the
queue is a (prefix-closed) topological enumeration. -/
def KInv (g : Graph) (st : KahnState) : Prop :=
  st.in_degrees.length = g.nodes.length ∧
  st.queue.Nodup ∧
  (∀ x ∈ st.queue, x < g.nodes.length) ∧
  st.queue_i ≤ st.queue.length ∧
  (∀ c, c < g.nodes.length →
    st.in_degrees.getD c 0 +
      ((parentsIn g.nodes c).filter (fun p => decide (p ∈ kprocessed st))).length =
      (parentsIn g.nodes c).length) ∧
  (∀ c, c < g.nodes.length →
    (c ∈ st.queue ↔ ∀ p ∈ parentsIn g.nodes c, p ∈ kprocessed st)) ∧
  (∀ k, k < st.queue.length →
    ∀ p ∈ parentsIn g.nodes (st.queue.getD k 0), p ∈ st.queue.take k) ∧
  st.underflow = false

/-- The Kahn loop's initial state satisfies the invariant. -/
theorem kinit {g : Graph} (hwf : WF g) : KInv g (kahnStart g) := by
  have hpc := hwf.2.2.2.2.2.2.2
  obtain ⟨-, hqueue, -, -, -⟩ := frozeInit_spec hwf
  have hzmem : ∀ c, c ∈ zeroIndices g ↔
      c < g.nodes.length ∧ (g.nodes.getD c Node.dflt).parent_count = 0 := by
    intro c
    simp [zeroIndices, List.mem_filter, List.mem_range]
  have hpars_nil : ∀ c, c < g.nodes.length →
      ((g.nodes.getD c Node.dflt).parent_count = 0 ↔ parentsIn g.nodes c = []) := by
    intro c hc
    rw [hpc c hc, List.length_eq_zero]
  have hkp : kprocessed (kahnStart g) = [] := rfl
  have hkq : (kahnStart g).queue = zeroIndices g := hqueue
  refine ⟨by simp [kahnStart], ?_, ?_, by simp [kahnStart], ?_, ?_, ?_, rfl⟩
  · rw [show (kahnStart g).queue = zeroIndices g from hqueue]
    exact (List.nodup_range _).filter _
  · intro x hx
    rw [hkq] at hx
    exact ((hzmem x).mp hx).1
  · intro c hc
    rw [hkp]
    have h1 : (kahnStart g).in_degrees.getD c 0 =
        (g.nodes.getD c Node.dflt).parent_count := getD_map hc
    have h2 : ((parentsIn g.nodes c).filter (fun p => decide (p ∈ ([] : List Nat)))) = [] := by
      apply List.filter_eq_nil_iff.mpr
      intro p _
      simp
    rw [h1, h2, hpc c hc]
    simp
  · intro c hc
    rw [hkp, hkq, hzmem c]
    constructor
    · rintro ⟨-, hzero⟩ p hp
      rw [hpars_nil c hc] at hzero
      rw [hzero] at hp
      exact absurd hp (List.not_mem_nil p)
    · intro hall
      refine ⟨hc, ?_⟩
      rw [hpars_nil c hc]
      cases hp : parentsIn g.nodes c with
      | nil => rfl
      | cons p t =>
        have := hall p (by rw [hp]; exact List.mem_cons_self p t)
        exact absurd this (List.not_mem_nil p)
  · intro k hk p hp
    exfalso
    rw [hkq] at hk hp
    have hql : (zeroIndices g).getD k 0 ∈ zeroIndices g := getD_mem hk
    obtain ⟨hlt, hzero⟩ := (hzmem _).mp hql
    rw [hpars_nil _ hlt] at hzero
    rw [hzero] at hp
    exact absurd hp (List.not_mem_nil p)

/-- Characterisation of the Kahn inner fold (children processing) when no
counter underflows: each processed child loses one from its counter,
children whose counter was exactly one are appended to the queue (in child
order), everything else is untouched. -/
theorem kahnInner_go :
    ∀ (cs : List Nat) (st : KahnState),
      cs.Nodup →
      (∀ c ∈ cs, 1 ≤ st.in_degrees.getD c 0) →
      ((cs.foldl kahnChild st).queue_i = st.queue_i ∧
       (cs.foldl kahnChild st).underflow = st.underflow ∧
       (cs.foldl kahnChild st).in_degrees.length = st.in_degrees.length ∧
       (∀ x, x ∉ cs → (cs.foldl kahnChild st).in_degrees.getD x 0 = st.in_degrees.getD x 0) ∧
       (∀ x ∈ cs, (cs.foldl kahnChild st).in_degrees.getD x 0 = st.in_degrees.getD x 0 - 1) ∧
       (cs.foldl kahnChild st).queue =
         st.queue ++ cs.filter (fun c => decide (st.in_degrees.getD c 0 = 1))) := by
  intro cs
  induction cs with
  | nil =>
    intro st _ _
    exact ⟨rfl, rfl, rfl, fun _ _ => rfl, fun x hx => absurd hx (List.not_mem_nil x),
      by simp⟩
  | cons c t ih =>
    intro st hnd hge
    have hd1 : 1 ≤ st.in_degrees.getD c 0 := hge c (List.mem_cons_self c t)
    have hct : c ∉ t := (List.nodup_cons.mp hnd).1
    have hndt : t.Nodup := (List.nodup_cons.mp hnd).2
    have hclt : c < st.in_degrees.length := by
      by_contra hcon
      rw [List.getD_eq_getElem?_getD, List.getElem?_eq_none (by omega)] at hd1
      exact absurd hd1 (by simp)
    have hd0 : decide (st.in_degrees.getD c 0 = 0) = false := decide_eq_false (by omega)
    have hchild : kahnChild st c =
        { st with in_degrees := st.in_degrees.set c (st.in_degrees.getD c 0 - 1),
                  queue := if st.in_degrees.getD c 0 = 1 then st.queue ++ [c] else st.queue } := by
      unfold kahnChild
      dsimp only
      rw [hd0]
      by_cases hone : st.in_degrees.getD c 0 = 1
      · rw [if_pos (by omega), if_pos hone]
        simp
      · rw [if_neg (by omega), if_neg hone]
        simp
    rw [List.foldl_cons, hchild]
    have hst1ge : ∀ c' ∈ t, 1 ≤ ({ st with
        in_degrees := st.in_degrees.set c (st.in_degrees.getD c 0 - 1),
        queue := if st.in_degrees.getD c 0 = 1 then st.queue ++ [c] else st.queue }
          : KahnState).in_degrees.getD c' 0 := by
      intro c' hc'
      have : c ≠ c' := fun hh => hct (hh ▸ hc')
      show 1 ≤ (st.in_degrees.set c _).getD c' 0
      rw [getD_set_ne this]
      exact hge c' (List.mem_cons_of_mem _ hc')
    obtain ⟨e1, e2, e3, e4, e5, e6⟩ := ih _ hndt hst1ge
    have hget_t : ∀ x ∈ t, (st.in_degrees.set c (st.in_degrees.getD c 0 - 1)).getD x 0 =
        st.in_degrees.getD x 0 := by
      intro x hx
      exact getD_set_ne (fun hh => hct (hh ▸ hx))
    refine ⟨e1, e2, by rw [e3]; simp, ?_, ?_, ?_⟩
    · intro x hx
      have hxc : x ≠ c := fun hh => hx (hh ▸ List.mem_cons_self c t)
      have hxt : x ∉ t := fun hh => hx (List.mem_cons_of_mem _ hh)
      rw [e4 x hxt]
      show (st.in_degrees.set c _).getD x 0 = _
      rw [getD_set_ne (fun hh => hxc hh.symm)]
    · intro x hx
      rcases List.mem_cons.mp hx with hx1 | hx1
      · subst hx1
        rw [e4 x hct]
        show (st.in_degrees.set x _).getD x 0 = _
        rw [getD_set_self hclt]
      · rw [e5 x hx1, hget_t x hx1]
    · rw [e6]
      have hfil : t.filter (fun c' =>
          decide ((st.in_degrees.set c (st.in_degrees.getD c 0 - 1)).getD c' 0 = 1)) =
          t.filter (fun c' => decide (st.in_degrees.getD c' 0 = 1)) := by
        apply List.filter_congr
        intro x hx
        rw [hget_t x hx]
      rw [hfil, List.filter_cons]
      by_cases hone : st.in_degrees.getD c 0 = 1
      · rw [if_pos hone,
          if_pos (show decide (st.in_degrees.getD c 0 = 1) = true from decide_eq_true hone)]
        simp
      · rw [if_neg hone, if_neg (show ¬(decide (st.in_degrees.getD c 0 = 1) = true) from by
          rw [decide_eq_false hone]; simp)]

/-- One Kahn iteration preserves the invariant, advances `queue_i`, and
only appends to the queue. -/
theorem kahnStep_spec {g : Graph} (hwf : WF g) {st : KahnState}
    (hinv : KInv g st) (hlt : st.queue_i < st.queue.length) :
    KInv g (kahnStep (frozeInit g).2.1.nodes st) ∧
    (kahnStep (frozeInit g).2.1.nodes st).queue_i = st.queue_i + 1 ∧
    st.queue <+: (kahnStep (frozeInit g).2.1.nodes st).queue := by
  obtain ⟨i1, i2, i3, i4, i5, i6, i7, i8⟩ := hinv
  have hidx := hwf.2.1
  have hcnodup := hwf.2.2.2.2.2.1
  have hcrange := hwf.2.2.2.2.2.2.1
  set N := g.nodes.length with hN
  set cursor := st.queue.getD st.queue_i 0 with hcursor
  have hcur_mem : cursor ∈ st.queue := getD_mem hlt
  have hcurN : cursor < N := i3 _ hcur_mem
  have hcur_notproc : cursor ∉ kprocessed st := nodup_getD_not_mem_take i2 hlt
  set cs := (g.nodes.getD cursor Node.dflt).childrens with hcs
  have hcs_nodup : cs.Nodup := hcnodup _ (getD_mem hcurN)
  have hcs_lt : ∀ c ∈ cs, c < N := fun c hc => (hcrange _ (getD_mem hcurN) c hc).1
  have hcs_pars : ∀ c, cursor ∈ parentsIn g.nodes c ↔ c ∈ cs := by
    intro c
    rw [mem_parentsIn]
    constructor
    · rintro ⟨-, hmem⟩; exact hmem
    · intro hmem; exact ⟨hcurN, hmem⟩
  have hunf : kahnStep (frozeInit g).2.1.nodes st =
      cs.foldl kahnChild { st with queue_i := st.queue_i + 1 } := by
    unfold kahnStep
    dsimp only
    rw [frozen_childrens_eq hwf cursor]
  have hdeg_pos : ∀ c ∈ cs,
      1 ≤ ({ st with queue_i := st.queue_i + 1 } : KahnState).in_degrees.getD c 0 := by
    intro c hc
    show 1 ≤ st.in_degrees.getD c 0
    have h5 := i5 c (hcs_lt c hc)
    have hflt : ((parentsIn g.nodes c).filter
        (fun p => decide (p ∈ kprocessed st))).length < (parentsIn g.nodes c).length :=
      filter_length_lt ((hcs_pars c).mpr hc) (decide_eq_false hcur_notproc)
    omega
  obtain ⟨e1, e2, e3, e4, e5, e6⟩ := kahnInner_go cs _ hcs_nodup hdeg_pos
  set st' := cs.foldl kahnChild ({ st with queue_i := st.queue_i + 1 } : KahnState) with hst'
  set E := cs.filter (fun c => decide (st.in_degrees.getD c 0 = 1)) with hE
  have e1' : st'.queue_i = st.queue_i + 1 := e1
  have e2' : st'.underflow = st.underflow := e2
  have e3' : st'.in_degrees.length = st.in_degrees.length := e3
  have e4' : ∀ x, x ∉ cs → st'.in_degrees.getD x 0 = st.in_degrees.getD x 0 := e4
  have e5' : ∀ x ∈ cs, st'.in_degrees.getD x 0 = st.in_degrees.getD x 0 - 1 := e5
  have e6' : st'.queue = st.queue ++ E := e6
  have hproc' : kprocessed st' = kprocessed st ++ [cursor] := by
    show st'.queue.take st'.queue_i = _
    rw [e1', e6', List.take_append_of_le_length (by omega)]
    rw [List.take_succ]
    congr 1
    rw [List.getElem?_eq_getElem hlt]
    show [st.queue[st.queue_i]] = [cursor]
    rw [hcursor, List.getD_eq_getElem?_getD, List.getElem?_eq_getElem hlt]
    rfl
  have hmem_proc' : ∀ p, p ∈ kprocessed st' ↔ p ∈ kprocessed st ∨ p = cursor := by
    intro p
    rw [hproc']
    simp [List.mem_append]
  have hE_mem : ∀ x, x ∈ E ↔ x ∈ cs ∧ st.in_degrees.getD x 0 = 1 := by
    intro x
    rw [hE]
    simp [List.mem_filter]
  have hcs_not_queue : ∀ x ∈ cs, x ∉ st.queue := by
    intro x hx hqx
    exact hcur_notproc ((i6 x (hcs_lt x hx)).mp hqx cursor ((hcs_pars x).mpr hx))
  have hflip : ∀ c, c ∈ cs →
      ((parentsIn g.nodes c).filter (fun p => decide (p ∈ kprocessed st'))).length =
      ((parentsIn g.nodes c).filter (fun p => decide (p ∈ kprocessed st))).length + 1 := by
    intro c hc
    apply filter_length_flip_one (parentsIn_nodup g.nodes c) ((hcs_pars c).mpr hc)
      (decide_eq_false hcur_notproc)
      (decide_eq_true ((hmem_proc' cursor).mpr (Or.inr rfl)))
    intro x _ hxc
    apply decide_eq_decide.mpr
    rw [hmem_proc' x]
    constructor
    · intro h; exact Or.inl h
    · rintro (h | h)
      · exact h
      · exact absurd h hxc
  have hsame : ∀ c, c < N → c ∉ cs →
      ((parentsIn g.nodes c).filter (fun p => decide (p ∈ kprocessed st'))) =
      ((parentsIn g.nodes c).filter (fun p => decide (p ∈ kprocessed st))) := by
    intro c _ hc
    apply List.filter_congr
    intro x hx
    apply decide_eq_decide.mpr
    rw [hmem_proc' x]
    constructor
    · rintro (h | h)
      · exact h
      · exfalso
        rw [h] at hx
        exact hc ((hcs_pars c).mp hx)
    · intro h; exact Or.inl h
  have hE_sub : ∀ x ∈ E, ∀ p ∈ parentsIn g.nodes x, p ∈ kprocessed st' := by
    intro x hx p hp
    obtain ⟨hxcs, hxdeg⟩ := (hE_mem x).mp hx
    have h5 := i5 x (hcs_lt x hxcs)
    have hlen : ((parentsIn g.nodes x).filter
        (fun p => decide (p ∈ kprocessed st'))).length = (parentsIn g.nodes x).length := by
      rw [hflip x hxcs]; omega
    have heq : (parentsIn g.nodes x).filter (fun p => decide (p ∈ kprocessed st')) =
        parentsIn g.nodes x := (List.filter_sublist _).eq_of_length hlen
    have := List.filter_eq_self.mp heq p hp
    exact of_decide_eq_true this
  have hE_deg : ∀ x ∈ cs, (∀ p ∈ parentsIn g.nodes x, p ∈ kprocessed st') → x ∈ E := by
    intro x hxcs hall
    have h5 := i5 x (hcs_lt x hxcs)
    have heq : (parentsIn g.nodes x).filter (fun p => decide (p ∈ kprocessed st')) =
        parentsIn g.nodes x :=
      List.filter_eq_self.mpr (fun p hp => decide_eq_true (hall p hp))
    have hlen := congrArg List.length heq
    rw [hflip x hxcs] at hlen
    have hpos : 1 ≤ (parentsIn g.nodes x).length :=
      List.length_pos.mpr (List.ne_nil_of_mem ((hcs_pars x).mpr hxcs))
    exact (hE_mem x).mpr ⟨hxcs, by omega⟩
  have hE_nodup : E.Nodup := hcs_nodup.filter _
  have hE_cs : ∀ x ∈ E, x ∈ cs := fun x hx => ((hE_mem x).mp hx).1
  have hq_nodup : st'.queue.Nodup := by
    rw [e6']
    exact List.Nodup.append i2 hE_nodup
      (fun a ha hae => hcs_not_queue a (hE_cs a hae) ha)
  rw [hunf]
  refine ⟨⟨by rw [e3']; exact i1, hq_nodup, ?_, ?_, ?_, ?_, ?_, by rw [e2']; exact i8⟩,
    e1', by rw [e6']; exact List.prefix_append _ _⟩
  · intro x hx
    rw [e6', List.mem_append] at hx
    rcases hx with hx | hx
    · exact i3 x hx
    · exact hcs_lt x (hE_cs x hx)
  · rw [e1', e6']
    have : st.queue_i + 1 ≤ st.queue.length := by omega
    simp only [List.length_append]
    omega
  · intro c hc
    by_cases hccs : c ∈ cs
    · have h5 := i5 c hc
      rw [hflip c hccs, e5' c hccs]
      have hdp : 1 ≤ st.in_degrees.getD c 0 := hdeg_pos c hccs
      omega
    · rw [hsame c hc hccs, e4' c hccs]
      exact i5 c hc
  · intro c hc
    rw [e6', List.mem_append]
    constructor
    · rintro (hq | hq)
      · intro p hp
        exact (hmem_proc' p).mpr (Or.inl ((i6 c hc).mp hq p hp))
      · exact hE_sub c hq
    · intro hall
      by_cases hccs : c ∈ cs
      · exact Or.inr (hE_deg c hccs hall)
      · left
        apply (i6 c hc).mpr
        intro p hp
        rcases (hmem_proc' p).mp (hall p hp) with h | h
        · exact h
        · exfalso
          rw [h] at hp
          exact hccs ((hcs_pars c).mp hp)
  · intro k hk p hp
    rw [e6'] at hk hp ⊢
    rw [List.length_append] at hk
    by_cases hkq : k < st.queue.length
    · rw [getD_append_left hkq] at hp
      rw [List.take_append_of_le_length (by omega)]
      exact i7 k hkq p hp
    · have hm : k = st.queue.length + (k - st.queue.length) := by omega
      have hmE : k - st.queue.length < E.length := by omega
      rw [getD_append_right (by omega)] at hp
      have hxE : E.getD (k - st.queue.length) 0 ∈ E := getD_mem hmE
      have hsub := hE_sub _ hxE p hp
      have hpq : p ∈ st.queue := by
        rcases (hmem_proc' p).mp hsub with h | h
        · exact (List.take_prefix _ _).subset h
        · rw [h]; exact hcur_mem
      rw [hm, List.take_append]
      exact List.mem_append_left _ hpq

/-- Running the Kahn loop with fuel at least `N - queue_i` reaches the
loop's fixpoint (`queue_i = queue.length`) while preserving the invariant;
the queue only ever grows. -/
theorem kahnLoop_reach {g : Graph} (hwf : WF g) :
    ∀ (fuel : Nat) (st : KahnState), KInv g st → g.nodes.length ≤ fuel + st.queue_i →
      KInv g (kahnLoop (frozeInit g).2.1.nodes fuel st) ∧
      (kahnLoop (frozeInit g).2.1.nodes fuel st).queue_i =
        (kahnLoop (frozeInit g).2.1.nodes fuel st).queue.length ∧
      st.queue <+: (kahnLoop (frozeInit g).2.1.nodes fuel st).queue := by
  intro fuel
  induction fuel with
  | zero =>
    intro st hinv hle
    refine ⟨hinv, ?_, List.prefix_refl _⟩
    obtain ⟨-, i2, i3, i4, -, -, -, -⟩ := hinv
    have := nodup_length_le i2 i3
    show st.queue_i = st.queue.length
    omega
  | succ fuel ih =>
    intro st hinv hle
    have hunf : kahnLoop (frozeInit g).2.1.nodes (fuel + 1) st =
        if st.queue_i < st.queue.length
        then kahnLoop (frozeInit g).2.1.nodes fuel (kahnStep (frozeInit g).2.1.nodes st)
        else st := rfl
    rw [hunf]
    by_cases hlt : st.queue_i < st.queue.length
    · rw [if_pos hlt]
      obtain ⟨hinv1, hqi, hpre⟩ := kahnStep_spec hwf hinv hlt
      obtain ⟨h1, h2, h3⟩ := ih _ hinv1 (by rw [hqi]; omega)
      refine ⟨h1, h2, hpre.trans h3⟩
    · rw [if_neg hlt]
      refine ⟨hinv, ?_, List.prefix_refl _⟩
      obtain ⟨-, -, -, i4, -, -, -, -⟩ := hinv
      show st.queue_i = st.queue.length
      omega

/-- The final Kahn state of `froze` satisfies the invariant with
`queue_i = queue.length`. -/
theorem frozeFinal_spec {g : Graph} (hwf : WF g) :
    KInv g (frozeFinal g) ∧ (frozeFinal g).queue_i = (frozeFinal g).queue.length := by
  have h := kahnLoop_reach hwf g.nodes.length (kahnStart g) (kinit hwf)
    (by show g.nodes.length ≤ g.nodes.length + (kahnStart g).queue_i; simp [kahnStart])
  exact ⟨h.1, h.2.1⟩

/-- The topological enumeration computed by `froze` (meaningful when
`froze` succeeds): the final Kahn queue. -/
def kahnOrder (g : Graph) : List Nat := (frozeFinal g).queue

/-- When `froze` succeeds (at least `N` dequeued), the Kahn queue is a
duplicate-free enumeration of all `N` node indices in which every node's
parents appear strictly earlier. -/
theorem kahnOrder_spec {g : Graph} (hwf : WF g)
    (hsucc : ¬ (frozeFinal g).queue_i < g.nodes.length) :
    (kahnOrder g).length = g.nodes.length ∧
    (kahnOrder g).Nodup ∧
    (∀ i, i < g.nodes.length → i ∈ kahnOrder g) ∧
    (∀ k, k < (kahnOrder g).length →
      ∀ p ∈ parentsIn g.nodes ((kahnOrder g).getD k 0), p ∈ (kahnOrder g).take k) ∧
    (∀ x ∈ kahnOrder g, x < g.nodes.length) := by
  obtain ⟨hinv, hfix⟩ := frozeFinal_spec hwf
  obtain ⟨-, i2, i3, i4, -, -, i7, -⟩ := hinv
  have hlen_le : (frozeFinal g).queue.length ≤ g.nodes.length := nodup_length_le i2 i3
  have hlen : (kahnOrder g).length = g.nodes.length := by
    show (frozeFinal g).queue.length = g.nodes.length
    omega
  refine ⟨hlen, i2, ?_, i7, i3⟩
  intro i hi
  exact nodup_lt_full i2 i3 (by omega) i hi

/-! ### Cycles -/

/-- The edge relation of a graph: `p → c` when `c` is a registered child of
node `p`. -/
def edgeRel (g : Graph) (p c : Nat) : Prop :=
  p < g.nodes.length ∧ c ∈ (g.nodes.getD p Node.dflt).childrens

/-- The graph contains a cycle: some node reaches itself by a non-empty
path of edges. -/
def hasCycle (g : Graph) : Prop := ∃ i, Relation.TransGen (edgeRel g) i i

theorem edgeRel_iff_parentsIn {g : Graph} {p c : Nat} :
    edgeRel g p c ↔ p ∈ parentsIn g.nodes c := by
  unfold edgeRel
  exact mem_parentsIn.symm

/-- If `froze` succeeds, edge sources appear strictly before their targets
in the Kahn order — so there is no cycle. -/
theorem no_cycle_of_froze_ok {g : Graph} (hwf : WF g)
    (hsucc : ¬ (frozeFinal g).queue_i < g.nodes.length) : ¬ hasCycle g := by
  obtain ⟨hlen, hnd, hfull, htopo, -⟩ := kahnOrder_spec hwf hsucc
  have hmono : ∀ a b, edgeRel g a b →
      List.indexOf a (kahnOrder g) < List.indexOf b (kahnOrder g) := by
    intro a b hedge
    have hbN : b < g.nodes.length := by
      have := hwf.2.2.2.2.2.2.1 _ (getD_mem hedge.1) b hedge.2
      exact this.1
    have hbmem : b ∈ kahnOrder g := hfull b hbN
    have hkb : List.indexOf b (kahnOrder g) < (kahnOrder g).length :=
      List.indexOf_lt_length.mpr hbmem
    have hgb : (kahnOrder g).getD (List.indexOf b (kahnOrder g)) 0 = b := by
      rw [List.getD_eq_getElem?_getD, List.getElem?_eq_getElem hkb]
      simp [List.getElem_indexOf hkb]
    have hpa : a ∈ (kahnOrder g).take (List.indexOf b (kahnOrder g)) := by
      apply htopo _ hkb
      rw [hgb]
      exact edgeRel_iff_parentsIn.mp hedge
    obtain ⟨j, hj, hval⟩ := List.getElem_of_mem hpa
    rw [List.length_take] at hj
    have hjb : j < List.indexOf b (kahnOrder g) := lt_of_lt_of_le (lt_min_iff.mp hj).1
      (le_refl _)
    have hjlen : j < (kahnOrder g).length := by omega
    have hgetj : (kahnOrder g)[j] = a := by
      rw [← @List.getElem_take _ (kahnOrder g) (List.indexOf b (kahnOrder g)) j
        (by rw [List.length_take]; exact hj)]
      exact hval
    have : List.indexOf a (kahnOrder g) = j := by
      rw [← hgetj]
      exact List.indexOf_getElem hnd j hjlen
    omega
  have hchain : ∀ a b, Relation.TransGen (edgeRel g) a b →
      List.indexOf a (kahnOrder g) < List.indexOf b (kahnOrder g) := by
    intro a b h
    induction h with
    | single hr => exact hmono _ _ hr
    | tail _ hr ih => exact lt_trans ih (hmono _ _ hr)
  rintro ⟨i, hcyc⟩
  exact lt_irrefl _ (hchain i i hcyc)

/-- A node's final remaining in-degree is positive exactly when it was
never dequeued. -/
theorem unresolved_iff_not_queued {g : Graph} (hwf : WF g) :
    ∀ c, c < g.nodes.length →
      (0 < (frozeFinal g).in_degrees.getD c 0 ↔ c ∉ (frozeFinal g).queue) := by
  obtain ⟨⟨-, -, -, -, i5, i6, -, -⟩, hfix⟩ := frozeFinal_spec hwf
  intro c hc
  have hproc : kprocessed (frozeFinal g) = (frozeFinal g).queue := by
    show (frozeFinal g).queue.take (frozeFinal g).queue_i = _
    rw [hfix, List.take_length]
  constructor
  · intro hpos hmem
    have hall := (i6 c hc).mp hmem
    have heq : (parentsIn g.nodes c).filter
        (fun p => decide (p ∈ kprocessed (frozeFinal g))) = parentsIn g.nodes c :=
      List.filter_eq_self.mpr (fun p hp => decide_eq_true (hall p hp))
    have := i5 c hc
    rw [heq] at this
    omega
  · intro hmem
    by_contra hz
    have hz0 : (frozeFinal g).in_degrees.getD c 0 = 0 := by omega
    apply hmem
    apply (i6 c hc).mpr
    intro p hp
    have h5 := i5 c hc
    rw [hz0, Nat.zero_add] at h5
    have heq : (parentsIn g.nodes c).filter
        (fun p => decide (p ∈ kprocessed (frozeFinal g))) = parentsIn g.nodes c :=
      (List.filter_sublist _).eq_of_length h5
    have := List.filter_eq_self.mp heq p hp
    exact of_decide_eq_true this

/-- If `froze` fails, the graph contains a cycle. -/
theorem cycle_of_froze_fail {g : Graph} (hwf : WF g)
    (hfail : (frozeFinal g).queue_i < g.nodes.length) : hasCycle g := by
  classical
  obtain ⟨⟨-, i2, i3, -, -, i6, -, -⟩, hfix⟩ := frozeFinal_spec hwf
  have hproc : kprocessed (frozeFinal g) = (frozeFinal g).queue := by
    show (frozeFinal g).queue.take (frozeFinal g).queue_i = _
    rw [hfix, List.take_length]
  set U := (List.range g.nodes.length).filter
    (fun c => decide (c ∉ (frozeFinal g).queue)) with hU
  have hU_mem : ∀ c, c ∈ U ↔ c < g.nodes.length ∧ c ∉ (frozeFinal g).queue := by
    intro c
    rw [hU]
    simp [List.mem_filter, List.mem_range]
  have hU_step : ∀ c ∈ U, ∃ p, p ∈ U ∧ edgeRel g p c := by
    intro c hc
    obtain ⟨hcN, hcq⟩ := (hU_mem c).mp hc
    have : ¬ ∀ p ∈ parentsIn g.nodes c, p ∈ kprocessed (frozeFinal g) := by
      intro hall
      exact hcq ((i6 c hcN).mpr hall)
    push_neg at this
    obtain ⟨p, hp, hpnot⟩ := this
    rw [hproc] at hpnot
    refine ⟨p, ?_, edgeRel_iff_parentsIn.mpr hp⟩
    rw [hU_mem]
    exact ⟨(mem_parentsIn.mp hp).1, hpnot⟩
  have hU_ne : U ≠ [] := by
    intro hnil
    have hsub : ∀ i, i < g.nodes.length → i ∈ (frozeFinal g).queue := by
      intro i hi
      by_contra hcon
      have : i ∈ U := (hU_mem i).mpr ⟨hi, hcon⟩
      rw [hnil] at this
      exact absurd this (List.not_mem_nil i)
    have hrange_sub : (List.range g.nodes.length).toFinset ⊆
        (frozeFinal g).queue.toFinset := by
      intro x hx
      rw [List.mem_toFinset] at hx ⊢
      exact hsub x (List.mem_range.mp hx)
    have hcard := Finset.card_le_card hrange_sub
    rw [List.toFinset_card_of_nodup (List.nodup_range _), List.length_range] at hcard
    have := List.toFinset_card_le (frozeFinal g).queue
    have hql := nodup_length_le i2 i3
    omega
  obtain ⟨c0, hc0⟩ : ∃ c, c ∈ U := List.exists_mem_of_ne_nil U hU_ne
  have hfex : ∀ c, ∃ p, c ∈ U → p ∈ U ∧ edgeRel g p c := by
    intro c
    by_cases hc : c ∈ U
    · obtain ⟨p, hp⟩ := hU_step c hc
      exact ⟨p, fun _ => hp⟩
    · exact ⟨0, fun hcc => absurd hcc hc⟩
  set f : Nat → Nat := fun c => Classical.choose (hfex c) with hf
  have hfspec : ∀ c ∈ U, f c ∈ U ∧ edgeRel g (f c) c := by
    intro c hc
    exact Classical.choose_spec (hfex c) hc
  have hiterU : ∀ y, y ∈ U → ∀ j, f^[j] y ∈ U := by
    intro y hy j
    induction j with
    | zero => exact hy
    | succ j ih =>
      rw [Function.iterate_succ_apply']
      exact (hfspec _ ih).1
  have htg : ∀ j, 1 ≤ j → ∀ y, y ∈ U → Relation.TransGen (edgeRel g) (f^[j] y) y := by
    intro j hj
    induction j with
    | zero => omega
    | succ j ih =>
      intro y hy
      by_cases hj0 : j = 0
      · subst hj0
        rw [Function.iterate_succ_apply', Function.iterate_zero_apply]
        exact Relation.TransGen.single (hfspec y hy).2
      · have hstep : edgeRel g (f^[j+1] y) (f^[j] y) := by
          rw [Function.iterate_succ_apply']
          exact (hfspec _ (hiterU y hy j)).2
        exact Relation.TransGen.head hstep (ih (by omega) y hy)
  have hmaps : ∀ a ∈ Finset.range (U.length + 1), f^[a] c0 ∈ U.toFinset := by
    intro a _
    rw [List.mem_toFinset]
    exact hiterU c0 hc0 a
  have hcard : U.toFinset.card < (Finset.range (U.length + 1)).card := by
    rw [Finset.card_range]
    have := List.toFinset_card_le U
    omega
  obtain ⟨a, ha, b, hb, hab, heq⟩ :=
    Finset.exists_ne_map_eq_of_card_lt_of_maps_to hcard hmaps
  have hkey : ∀ a b, a < b → f^[a] c0 = f^[b] c0 → hasCycle g := by
    intro a b hab heq
    refine ⟨f^[a] c0, ?_⟩
    have hx : f^[a] c0 ∈ U := hiterU c0 hc0 a
    have hd : f^[b - a] (f^[a] c0) = f^[a] c0 := by
      rw [← Function.iterate_add_apply, show b - a + a = b from by omega]
      exact heq.symm
    have hres := htg (b - a) (by omega) (f^[a] c0) hx
    rw [hd] at hres
    exact hres
  rcases Nat.lt_or_ge a b with h | h
  · exact hkey a b h heq
  · have hba : b < a := by omega
    exact hkey b a hba heq.symm

/-! ### Facts about a successfully frozen graph -/

/-- The parents of `c` in the compiled graph, including the synthetic root
(denoted by index `N = node count`) for the zero-in-degree nodes. -/
def FrozenGraph.fparents (fz : FrozenGraph) (c : Nat) : List Nat :=
  (List.range (fz.graph.nodes.length + 1)).filter (fun u => decide (c ∈ fz.childrensOf u))

theorem mem_fparents {fz : FrozenGraph} {u c : Nat} :
    u ∈ fz.fparents c ↔ u ≤ fz.graph.nodes.length ∧ c ∈ fz.childrensOf u := by
  unfold FrozenGraph.fparents
  simp [List.mem_filter, List.mem_range, Nat.lt_succ_iff]

theorem fparents_nodup (fz : FrozenGraph) (c : Nat) : (fz.fparents c).Nodup :=
  (List.nodup_range _).filter _

/-- Unfolding a successful `froze`. -/
theorem froze_ok_inv {g : Graph} {fz : FrozenGraph} (hok : g.froze = .ok fz) :
    fz = { graph := (frozeInit g).2.1, root := (frozeInit g).1 } ∧
    ¬ (frozeFinal g).queue_i < g.nodes.length := by
  unfold Graph.froze at hok
  by_cases hc : (frozeFinal g).queue_i < g.nodes.length
  · rw [if_pos hc] at hok
    exact absurd hok (by simp)
  · rw [if_neg hc] at hok
    simp only [Except.ok.injEq] at hok
    exact ⟨hok.symm, hc⟩

theorem fz_len {g : Graph} {fz : FrozenGraph} (hwf : WF g) (hok : g.froze = .ok fz) :
    fz.graph.nodes.length = g.nodes.length := by
  obtain ⟨rfl, -⟩ := froze_ok_inv hok
  exact (frozeInit_spec hwf).2.2.1

theorem fz_root_childrens {g : Graph} {fz : FrozenGraph} (hwf : WF g)
    (hok : g.froze = .ok fz) : fz.root.childrens = zeroIndices g := by
  obtain ⟨rfl, -⟩ := froze_ok_inv hok
  show (frozeInit g).1.childrens = zeroIndices g
  rw [(frozeInit_spec hwf).1]

theorem fz_root_index {g : Graph} {fz : FrozenGraph} (hwf : WF g)
    (hok : g.froze = .ok fz) : fz.root.index = g.nodes.length := by
  obtain ⟨rfl, -⟩ := froze_ok_inv hok
  show (frozeInit g).1.index = g.nodes.length
  rw [(frozeInit_spec hwf).1]

theorem fz_root_name {g : Graph} {fz : FrozenGraph} (hwf : WF g)
    (hok : g.froze = .ok fz) : fz.root.name = "$ROOT" := by
  obtain ⟨rfl, -⟩ := froze_ok_inv hok
  show (frozeInit g).1.name = "$ROOT"
  rw [(frozeInit_spec hwf).1]

theorem fz_childrensOf_lt {g : Graph} {fz : FrozenGraph} (hwf : WF g)
    (hok : g.froze = .ok fz) {u : Nat} (hu : u < g.nodes.length) :
    fz.childrensOf u = (g.nodes.getD u Node.dflt).childrens := by
  obtain ⟨heq, -⟩ := froze_ok_inv hok
  unfold FrozenGraph.childrensOf
  rw [if_neg (by rw [fz_len hwf hok]; omega)]
  rw [heq]
  exact frozen_childrens_eq hwf u

theorem fz_childrensOf_root {g : Graph} {fz : FrozenGraph} (hwf : WF g)
    (hok : g.froze = .ok fz) :
    fz.childrensOf (g.nodes.length) = zeroIndices g := by
  unfold FrozenGraph.childrensOf
  rw [if_pos (fz_len hwf hok).symm]
  exact fz_root_childrens hwf hok

theorem mem_zeroIndices {g : Graph} {c : Nat} :
    c ∈ zeroIndices g ↔ c < g.nodes.length ∧ (g.nodes.getD c Node.dflt).parent_count = 0 := by
  simp [zeroIndices, List.mem_filter, List.mem_range]

/-- After freezing, every node's `parent_count` equals its number of
distinct parents in the compiled graph (synthetic root included). -/
theorem fz_pc {g : Graph} {fz : FrozenGraph} (hwf : WF g) (hok : g.froze = .ok fz) :
    ∀ c, c < g.nodes.length →
      (fz.graph.nodes.getD c Node.dflt).parent_count = (fz.fparents c).length := by
  intro c hc
  obtain ⟨heq, -⟩ := froze_ok_inv hok
  have hget : fz.graph.nodes.getD c Node.dflt = bumpNode (g.nodes.getD c Node.dflt) := by
    rw [heq]
    show (frozeInit g).2.1.nodes.getD c Node.dflt = _
    rw [(frozeInit_spec hwf).2.2.2.2 c, if_pos hc]
  have h1 : (List.range g.nodes.length).filter (fun u => decide (c ∈ fz.childrensOf u)) =
      parentsIn g.nodes c := by
    unfold parentsIn
    apply List.filter_congr
    intro u hu
    rw [fz_childrensOf_lt hwf hok (List.mem_range.mp hu)]
  have hsplit : (fz.fparents c).length =
      (parentsIn g.nodes c).length +
      (if c ∈ fz.childrensOf g.nodes.length then 1 else 0) := by
    unfold FrozenGraph.fparents
    rw [fz_len hwf hok, List.range_succ, List.filter_append, List.length_append, h1]
    congr 1
    by_cases hmem : c ∈ fz.childrensOf g.nodes.length
    · rw [if_pos hmem]
      simp [hmem]
    · rw [if_neg hmem]
      simp [hmem]
  have hpc := hwf.2.2.2.2.2.2.2 c hc
  have hmr : c ∈ fz.childrensOf g.nodes.length ↔ c ∈ zeroIndices g := by
    rw [fz_childrensOf_root hwf hok]
  have haddend : (if c ∈ fz.childrensOf g.nodes.length then 1 else 0) =
      (if (g.nodes.getD c Node.dflt).parent_count = 0 then 1 else 0) := by
    by_cases hzero : (g.nodes.getD c Node.dflt).parent_count = 0
    · rw [if_pos (hmr.mpr (mem_zeroIndices.mpr ⟨hc, hzero⟩)), if_pos hzero]
    · rw [if_neg (fun hh => hzero (mem_zeroIndices.mp (hmr.mp hh)).2), if_neg hzero]
  rw [hget, hsplit, haddend]
  unfold bumpNode
  by_cases hzero : (g.nodes.getD c Node.dflt).parent_count = 0
  · rw [if_pos hzero, if_pos hzero]
    show (g.nodes.getD c Node.dflt).parent_count + 1 = (parentsIn g.nodes c).length + 1
    omega
  · rw [if_neg hzero, if_neg hzero]
    omega

/-- Every real node of the compiled graph has at least one parent (the
zero-in-degree nodes gained the synthetic root as parent). -/
theorem fz_fparents_pos {g : Graph} {fz : FrozenGraph} (hwf : WF g) (hok : g.froze = .ok fz) :
    ∀ c, c < g.nodes.length → 1 ≤ (fz.fparents c).length := by
  intro c hc
  rw [← fz_pc hwf hok c hc]
  obtain ⟨heq, -⟩ := froze_ok_inv hok
  have hget : fz.graph.nodes.getD c Node.dflt = bumpNode (g.nodes.getD c Node.dflt) := by
    rw [heq]
    show (frozeInit g).2.1.nodes.getD c Node.dflt = _
    rw [(frozeInit_spec hwf).2.2.2.2 c, if_pos hc]
  rw [hget]
  unfold bumpNode
  by_cases hzero : (g.nodes.getD c Node.dflt).parent_count = 0
  · rw [if_pos hzero]
    show 1 ≤ (g.nodes.getD c Node.dflt).parent_count + 1
    omega
  · rw [if_neg hzero]
    omega

theorem fz_child_nodup {g : Graph} {fz : FrozenGraph} (hwf : WF g) (hok : g.froze = .ok fz) :
    ∀ u, u ≤ g.nodes.length → (fz.childrensOf u).Nodup := by
  intro u hu
  rcases Nat.lt_or_ge u g.nodes.length with hlt | hge
  · rw [fz_childrensOf_lt hwf hok hlt]
    exact hwf.2.2.2.2.2.1 _ (getD_mem hlt)
  · have hu' : u = g.nodes.length := by omega
    subst hu'
    rw [fz_childrensOf_root hwf hok]
    exact (List.nodup_range _).filter _

theorem fz_child_lt_ne {g : Graph} {fz : FrozenGraph} (hwf : WF g) (hok : g.froze = .ok fz) :
    ∀ u, u ≤ g.nodes.length → ∀ c ∈ fz.childrensOf u, c < g.nodes.length ∧ c ≠ u := by
  intro u hu c hc
  rcases Nat.lt_or_ge u g.nodes.length with hlt | hge
  · rw [fz_childrensOf_lt hwf hok hlt] at hc
    have := hwf.2.2.2.2.2.2.1 _ (getD_mem hlt) c hc
    rw [hwf.2.1 u hlt] at this
    exact this
  · have hu' : u = g.nodes.length := by omega
    subst hu'
    rw [fz_childrensOf_root hwf hok] at hc
    have := (mem_zeroIndices.mp hc).1
    exact ⟨this, by omega⟩

/-- Real parents in the compiled graph are exactly the original parents. -/
theorem fz_fparents_real {g : Graph} {fz : FrozenGraph} (hwf : WF g) (hok : g.froze = .ok fz) :
    ∀ p c, p < g.nodes.length → (p ∈ fz.fparents c ↔ p ∈ parentsIn g.nodes c) := by
  intro p c hp
  rw [mem_fparents, mem_parentsIn, fz_len hwf hok, fz_childrensOf_lt hwf hok hp]
  constructor
  · rintro ⟨-, h⟩; exact ⟨hp, h⟩
  · rintro ⟨-, h⟩; exact ⟨by omega, h⟩

/-- Membership of the root among a node's compiled parents. -/
theorem fz_fparents_root {g : Graph} {fz : FrozenGraph} (hwf : WF g) (hok : g.froze = .ok fz) :
    ∀ c, (g.nodes.length ∈ fz.fparents c ↔ c ∈ zeroIndices g) := by
  intro c
  rw [mem_fparents, fz_len hwf hok, fz_childrensOf_root hwf hok]
  constructor
  · rintro ⟨-, h⟩; exact h
  · intro h; exact ⟨le_refl _, h⟩

/-! ### The run-loop invariant -/

/-- The processed prefix of a run: the cursors whose children have already
been handled.  At loop entry with consumed-`Done` history `done`, these are
the root (`N`) followed by all of `done` except the most recent entry (the
current cursor, whose children are handled by this iteration). -/
def PLof (N : Nat) (done : List Nat) : List Nat := (N :: done).dropLast

/-- The cursor at loop entry: the most recently consumed node, or the root
(`N`) when nothing has been consumed yet. -/
def cursorOf (N : Nat) (done : List Nat) : Nat :=
  (N :: done).getLast (List.cons_ne_nil N done)

theorem PLof_nil (N : Nat) : PLof N [] = [] := rfl

theorem PLof_concat (N : Nat) (done : List Nat) (x : Nat) :
    PLof N (done ++ [x]) = N :: done := by
  show ((N :: done) ++ [x]).dropLast = N :: done
  exact List.dropLast_concat

theorem cursorOf_nil (N : Nat) : cursorOf N [] = N := rfl

theorem cursorOf_concat (N : Nat) (done : List Nat) (x : Nat) :
    cursorOf N (done ++ [x]) = x :=
  List.getLast_concat (N :: done)

theorem PLof_append_cursor (N : Nat) (done : List Nat) :
    PLof N done ++ [cursorOf N done] = N :: done :=
  List.dropLast_append_getLast (List.cons_ne_nil N done)

theorem getLast_not_mem_dropLast {l : List Nat} (h : l ≠ []) (hnd : l.Nodup) :
    l.getLast h ∉ l.dropLast := by
  intro hmem
  have heq := List.dropLast_append_getLast h
  rw [← heq] at hnd
  rw [List.nodup_append] at hnd
  exact hnd.2.2 hmem (List.mem_singleton.mpr rfl)

theorem cursorOf_not_mem_PLof {N : Nat} {done : List Nat} (hnd : done.Nodup)
    (hlt : ∀ x ∈ done, x < N) : cursorOf N done ∉ PLof N done := by
  apply getLast_not_mem_dropLast
  rw [List.nodup_cons]
  exact ⟨fun hmem => lt_irrefl N (hlt N hmem), hnd⟩

theorem cursorOf_mem (N : Nat) (done : List Nat) : cursorOf N done ∈ N :: done :=
  List.getLast_mem _

theorem mem_PLof {N : Nat} {done : List Nat} {p : Nat} (h : p ∈ PLof N done) :
    p ∈ N :: done :=
  (List.dropLast_sublist _).subset h

theorem mem_consumedOf {events : List REvent} {p : Nat} :
    p ∈ consumedOf events ↔ REvent.consume p ∈ events := by
  unfold consumedOf
  rw [List.mem_filterMap]
  constructor
  · rintro ⟨e, he, hmatch⟩
    cases e with
    | dispatch i => simp at hmatch
    | consume i =>
      simp at hmatch
      rw [← hmatch]
      exact he
  · intro h
    exact ⟨REvent.consume p, h, rfl⟩

theorem dispatchedOf_append (a b : List REvent) :
    dispatchedOf (a ++ b) = dispatchedOf a ++ dispatchedOf b :=
  List.filterMap_append a b _

theorem consumedOf_append (a b : List REvent) :
    consumedOf (a ++ b) = consumedOf a ++ consumedOf b :=
  List.filterMap_append a b _

theorem dispatchedOf_dispatch_map (E : List Nat) :
    dispatchedOf (E.map REvent.dispatch) = E := by
  induction E with
  | nil => rfl
  | cons a t ih =>
    show dispatchedOf (REvent.dispatch a :: t.map REvent.dispatch) = a :: t
    unfold dispatchedOf at ih ⊢
    rw [List.filterMap_cons]
    simp only []
    rw [ih]

theorem consumedOf_dispatch_map (E : List Nat) :
    consumedOf (E.map REvent.dispatch) = [] := by
  induction E with
  | nil => rfl
  | cons a t ih =>
    show consumedOf (REvent.dispatch a :: t.map REvent.dispatch) = []
    unfold consumedOf at ih ⊢
    rw [List.filterMap_cons]
    simp only []
    rw [ih]

theorem dispatchedOf_consume (x : Nat) : dispatchedOf [REvent.consume x] = [] := rfl

theorem consumedOf_consume (x : Nat) : consumedOf [REvent.consume x] = [x] := rfl

/-- Characterisation of the dispatch phase (children processing of one
completed cursor) when no counter underflows: each child loses one from
its counter; children whose counter was exactly one are dispatched, i.e.
appended (in child order) to the pending units and recorded in the trace;
everything else is untouched. -/
theorem dispatchInner_go :
    ∀ (cs : List Nat) (st : RunState),
      cs.Nodup →
      (∀ c ∈ cs, 1 ≤ st.counters.getD c 0) →
      ((cs.foldl dispatchChild st).underflow = st.underflow ∧
       (cs.foldl dispatchChild st).counters.length = st.counters.length ∧
       (∀ x, x ∉ cs → (cs.foldl dispatchChild st).counters.getD x 0 = st.counters.getD x 0) ∧
       (∀ x ∈ cs, (cs.foldl dispatchChild st).counters.getD x 0 =
         st.counters.getD x 0 - 1) ∧
       (cs.foldl dispatchChild st).pending =
         st.pending ++ cs.filter (fun c => decide (st.counters.getD c 0 = 1)) ∧
       (cs.foldl dispatchChild st).events =
         st.events ++ (cs.filter (fun c => decide (st.counters.getD c 0 = 1))).map
           REvent.dispatch) := by
  intro cs
  induction cs with
  | nil =>
    intro st _ _
    exact ⟨rfl, rfl, fun _ _ => rfl, fun x hx => absurd hx (List.not_mem_nil x), by simp,
      by simp⟩
  | cons c t ih =>
    intro st hnd hge
    have hd1 : 1 ≤ st.counters.getD c 0 := hge c (List.mem_cons_self c t)
    have hct : c ∉ t := (List.nodup_cons.mp hnd).1
    have hndt : t.Nodup := (List.nodup_cons.mp hnd).2
    have hclt : c < st.counters.length := by
      by_contra hcon
      rw [List.getD_eq_getElem?_getD, List.getElem?_eq_none (by omega)] at hd1
      exact absurd hd1 (by simp)
    have hd0 : decide (st.counters.getD c 0 = 0) = false := decide_eq_false (by omega)
    have hget_t : ∀ x ∈ t, (st.counters.set c (st.counters.getD c 0 - 1)).getD x 0 =
        st.counters.getD x 0 := by
      intro x hx
      exact getD_set_ne (show c ≠ x from fun hh => hct (by rw [hh]; exact hx))
    by_cases hone : st.counters.getD c 0 = 1
    · have hchild : dispatchChild st c =
          { st with counters := st.counters.set c (st.counters.getD c 0 - 1),
                    pending := st.pending ++ [c],
                    events := st.events ++ [REvent.dispatch c] } := by
        unfold dispatchChild
        dsimp only
        rw [hd0, if_pos (by omega)]
        simp
      rw [List.foldl_cons, hchild]
      have hst1ge : ∀ c' ∈ t, 1 ≤ ({ st with
          counters := st.counters.set c (st.counters.getD c 0 - 1),
          pending := st.pending ++ [c],
          events := st.events ++ [REvent.dispatch c] } : RunState).counters.getD c' 0 := by
        intro c' hc'
        show 1 ≤ (st.counters.set c _).getD c' 0
        rw [hget_t c' hc']
        exact hge c' (List.mem_cons_of_mem _ hc')
      obtain ⟨e1, e2, e3, e4, e5, e6⟩ := ih _ hndt hst1ge
      have hfil : t.filter (fun c' =>
          decide ((st.counters.set c (st.counters.getD c 0 - 1)).getD c' 0 = 1)) =
          t.filter (fun c' => decide (st.counters.getD c' 0 = 1)) := by
        apply List.filter_congr
        intro x hx
        rw [hget_t x hx]
      have hfc : (c :: t).filter (fun c' => decide (st.counters.getD c' 0 = 1)) =
          c :: t.filter (fun c' => decide (st.counters.getD c' 0 = 1)) := by
        rw [List.filter_cons,
          if_pos (show decide (st.counters.getD c 0 = 1) = true from decide_eq_true hone)]
      refine ⟨e1, by rw [e2]; simp, ?_, ?_, ?_, ?_⟩
      · intro x hx
        have hxc : x ≠ c := fun hh => hx (hh ▸ List.mem_cons_self c t)
        have hxt : x ∉ t := fun hh => hx (List.mem_cons_of_mem _ hh)
        rw [e3 x hxt]
        show (st.counters.set c _).getD x 0 = _
        rw [getD_set_ne (fun hh => hxc hh.symm)]
      · intro x hx
        rcases List.mem_cons.mp hx with hx1 | hx1
        · subst hx1
          rw [e3 x hct]
          show (st.counters.set x _).getD x 0 = _
          rw [getD_set_self hclt]
        · rw [e4 x hx1, hget_t x hx1]
      · rw [e5]
        show st.pending ++ [c] ++ _ = _
        rw [hfil, hfc]
        simp
      · rw [e6]
        show st.events ++ [REvent.dispatch c] ++ _ = _
        rw [hfil, hfc]
        simp
    · have hchild : dispatchChild st c =
          { st with counters := st.counters.set c (st.counters.getD c 0 - 1) } := by
        unfold dispatchChild
        dsimp only
        rw [hd0, if_neg (by omega)]
        simp
      rw [List.foldl_cons, hchild]
      have hst1ge : ∀ c' ∈ t, 1 ≤ ({ st with
          counters := st.counters.set c (st.counters.getD c 0 - 1) }
            : RunState).counters.getD c' 0 := by
        intro c' hc'
        show 1 ≤ (st.counters.set c _).getD c' 0
        rw [hget_t c' hc']
        exact hge c' (List.mem_cons_of_mem _ hc')
      obtain ⟨e1, e2, e3, e4, e5, e6⟩ := ih _ hndt hst1ge
      have hfil : t.filter (fun c' =>
          decide ((st.counters.set c (st.counters.getD c 0 - 1)).getD c' 0 = 1)) =
          t.filter (fun c' => decide (st.counters.getD c' 0 = 1)) := by
        apply List.filter_congr
        intro x hx
        rw [hget_t x hx]
      have hfc : (c :: t).filter (fun c' => decide (st.counters.getD c' 0 = 1)) =
          t.filter (fun c' => decide (st.counters.getD c' 0 = 1)) := by
        rw [List.filter_cons,
          if_neg (show ¬(decide (st.counters.getD c 0 = 1) = true) from by
            rw [decide_eq_false hone]; simp)]
      refine ⟨e1, by rw [e2]; simp, ?_, ?_, ?_, ?_⟩
      · intro x hx
        have hxc : x ≠ c := fun hh => hx (hh ▸ List.mem_cons_self c t)
        have hxt : x ∉ t := fun hh => hx (List.mem_cons_of_mem _ hh)
        rw [e3 x hxt]
        show (st.counters.set c _).getD x 0 = _
        rw [getD_set_ne (fun hh => hxc hh.symm)]
      · intro x hx
        rcases List.mem_cons.mp hx with hx1 | hx1
        · subst hx1
          rw [e3 x hct]
          show (st.counters.set x _).getD x 0 = _
          rw [getD_set_self hclt]
        · rw [e4 x hx1, hget_t x hx1]
      · rw [e5]
        show st.pending ++ _ = _
        rw [hfil, hfc]
      · rw [e6]
        show st.events ++ _ = _
        rw [hfil, hfc]

/-- Unfolding equations of `runLoop`. -/
theorem runLoop_zero (fz : FrozenGraph) (outcome : Nat → TaskOutcome)
    (children : List Nat) (st : RunState) (sched : List Nat) :
    runLoop fz outcome 0 children st sched =
      some { result := .ok (), events := st.events,
             leftover := st.pending.map (eventFor outcome), underflow := st.underflow } := rfl

theorem runLoop_succ_nil (fz : FrozenGraph) (outcome : Nat → TaskOutcome) (fuel : Nat)
    (children : List Nat) (st : RunState) :
    runLoop fz outcome (fuel + 1) children st [] = none := rfl

theorem runLoop_succ_cons (fz : FrozenGraph) (outcome : Nat → TaskOutcome) (fuel : Nat)
    (children : List Nat) (st : RunState) (x : Nat) (rest : List Nat) :
    runLoop fz outcome (fuel + 1) children st (x :: rest) =
      (if x ∈ (dispatchPhase st children).pending then
        match outcome x with
        | .succeeds => runLoop fz outcome fuel (fz.childrensOf x)
            { dispatchPhase st children with
                pending := (dispatchPhase st children).pending.erase x,
                events := (dispatchPhase st children).events ++ [REvent.consume x] } rest
        | .fails e =>
          some { result := .error (.RuntimeFailed (fz.nameOf x) e),
                 events := (dispatchPhase st children).events ++ [REvent.consume x],
                 leftover := ((dispatchPhase st children).pending.erase x).map
                   (eventFor outcome),
                 underflow := (dispatchPhase st children).underflow }
        | .panics p =>
          some { result := .error (.RuntimePanicked (fz.nameOf x) p),
                 events := (dispatchPhase st children).events ++ [REvent.consume x],
                 leftover := ((dispatchPhase st children).pending.erase x).map
                   (eventFor outcome),
                 underflow := (dispatchPhase st children).underflow }
      else none) := rfl

/-- The run-loop invariant at loop entry, with consumed-`Done` history
`done`: completion bookkeeping matches the processed prefix `PLof N done`,
the trace's dispatch projection holds exactly the nodes all of whose
compiled parents are processed, the pending units are the dispatched but
unconsumed ones, and no dispatch ever precedes the consumption of one of
its node's real parents. -/
def RInv (fz : FrozenGraph) (outcome : Nat → TaskOutcome) (done : List Nat)
    (st : RunState) : Prop :=
  done.Nodup ∧
  (∀ x ∈ done, x < fz.graph.nodes.length) ∧
  (∀ x ∈ done, outcome x = .succeeds) ∧
  st.counters.length = fz.graph.nodes.length ∧
  (∀ c, c < fz.graph.nodes.length →
    st.counters.getD c 0 +
      ((fz.fparents c).filter
        (fun p => decide (p ∈ PLof fz.graph.nodes.length done))).length =
      (fz.fparents c).length) ∧
  consumedOf st.events = done ∧
  (dispatchedOf st.events).Nodup ∧
  (∀ c, c ∈ dispatchedOf st.events ↔
    c < fz.graph.nodes.length ∧
      ∀ p ∈ fz.fparents c, p ∈ PLof fz.graph.nodes.length done) ∧
  st.pending = (dispatchedOf st.events).filter (fun y => decide (y ∉ done)) ∧
  (∀ x ∈ done, x ∈ dispatchedOf st.events) ∧
  (∀ t c, st.events.getD t (.consume 0) = .dispatch c →
    ∀ p ∈ fz.fparents c, p < fz.graph.nodes.length →
      REvent.consume p ∈ st.events.take t) ∧
  st.underflow = false

/-- The initial run state satisfies the invariant with empty history. -/
theorem rinit {g : Graph} {fz : FrozenGraph} (hwf : WF g) (hok : g.froze = .ok fz)
    (outcome : Nat → TaskOutcome) :
    RInv fz outcome []
      { counters := fz.graph.nodes.map (fun n => n.parent_count),
        pending := [], events := [], underflow := false } := by
  refine ⟨List.nodup_nil, by simp, by simp, by simp, ?_, rfl, List.nodup_nil, ?_, rfl,
    by simp, ?_, rfl⟩
  · intro c hc
    show (fz.graph.nodes.map (fun n => n.parent_count)).getD c 0 +
      ((fz.fparents c).filter (fun p => decide (p ∈ PLof fz.graph.nodes.length []))).length =
      (fz.fparents c).length
    rw [PLof_nil]
    have h1 : (fz.graph.nodes.map (fun n => n.parent_count)).getD c 0 =
        (fz.graph.nodes.getD c Node.dflt).parent_count := getD_map hc
    have h2 : (fz.fparents c).filter (fun p => decide (p ∈ ([] : List Nat))) = [] :=
      List.filter_eq_nil_iff.mpr (fun p _ => by simp)
    rw [h1, h2, fz_pc hwf hok c (by rw [← fz_len hwf hok]; exact hc)]
    simp
  · intro c
    show c ∈ dispatchedOf [] ↔ _
    constructor
    · intro h
      exact absurd h (List.not_mem_nil c)
    · rintro ⟨hc, hsub⟩
      exfalso
      have hpos := fz_fparents_pos hwf hok c (by rw [← fz_len hwf hok]; exact hc)
      obtain ⟨p, hp⟩ := List.exists_mem_of_ne_nil (fz.fparents c)
        (by intro hh; rw [hh] at hpos; simp at hpos)
      have := hsub p hp
      rw [PLof_nil] at this
      exact absurd this (List.not_mem_nil p)
  · intro t c hget
    exfalso
    have : (([] : List REvent)).getD t (REvent.consume 0) = REvent.consume 0 := by
      simp [List.getD]
    rw [this] at hget
    exact absurd hget (by simp)

/-- Soundness facts about any completed `runLoop` execution. -/
def OutSound (fz : FrozenGraph) (outcome : Nat → TaskOutcome) (out : RunOutcome) : Prop :=
  out.underflow = false ∧
  (dispatchedOf out.events).Nodup ∧
  (∀ c ∈ dispatchedOf out.events, c < fz.graph.nodes.length) ∧
  (consumedOf out.events).Nodup ∧
  (∀ x ∈ consumedOf out.events, x ∈ dispatchedOf out.events) ∧
  out.leftover = ((dispatchedOf out.events).filter
    (fun y => decide (y ∉ consumedOf out.events))).map (eventFor outcome) ∧
  (∀ t c, out.events.getD t (.consume 0) = .dispatch c →
    ∀ p ∈ fz.fparents c, p < fz.graph.nodes.length →
      REvent.consume p ∈ out.events.take t) ∧
  (out.result = .ok () →
    (∀ i, i ∈ dispatchedOf out.events ↔ i < fz.graph.nodes.length) ∧
    (∀ i, i ∈ consumedOf out.events ↔ i < fz.graph.nodes.length) ∧
    out.leftover = []) ∧
  (∀ nm e, out.result = .error (.RuntimeFailed nm e) →
    ∃ x, x < fz.graph.nodes.length ∧ nm = fz.nameOf x ∧ outcome x = .fails e ∧
      x ∈ dispatchedOf out.events) ∧
  (∀ nm pp, out.result = .error (.RuntimePanicked nm pp) →
    ∃ x, x < fz.graph.nodes.length ∧ nm = fz.nameOf x ∧ outcome x = .panics pp ∧
      x ∈ dispatchedOf out.events)

/-- Everything the dispatch phase of one loop iteration establishes, at the
point just before the `recv`: counters now account for the cursor's
processing, and the dispatched set is exactly the set of nodes whose
compiled parents all lie in `N :: done`. -/
theorem phase_facts {g : Graph} {fz : FrozenGraph} {outcome : Nat → TaskOutcome}
    {done : List Nat} {st : RunState} (hwf : WF g) (hok : g.froze = .ok fz)
    (hinv : RInv fz outcome done st) :
    ∀ stφ, stφ = dispatchPhase st
        (fz.childrensOf (cursorOf fz.graph.nodes.length done)) →
      (stφ.counters.length = fz.graph.nodes.length ∧
       (∀ c, c < fz.graph.nodes.length →
         stφ.counters.getD c 0 +
           ((fz.fparents c).filter
             (fun p => decide (p ∈ fz.graph.nodes.length :: done))).length =
           (fz.fparents c).length) ∧
       consumedOf stφ.events = done ∧
       (dispatchedOf stφ.events).Nodup ∧
       (∀ c, c ∈ dispatchedOf stφ.events ↔
         c < fz.graph.nodes.length ∧
           ∀ p ∈ fz.fparents c, p ∈ fz.graph.nodes.length :: done) ∧
       stφ.pending = (dispatchedOf stφ.events).filter (fun y => decide (y ∉ done)) ∧
       (∀ t c, stφ.events.getD t (.consume 0) = .dispatch c →
         ∀ p ∈ fz.fparents c, p < fz.graph.nodes.length →
           REvent.consume p ∈ stφ.events.take t) ∧
       stφ.underflow = false ∧
       (∀ x ∈ dispatchedOf st.events, x ∈ dispatchedOf stφ.events)) := by
  obtain ⟨r1, r2, r3, r4, r5, r6, r7, r8, r9, r10, r11, r12⟩ := hinv
  intro stφ hstφ
  have hNf : fz.graph.nodes.length = g.nodes.length := fz_len hwf hok
  set Nf := fz.graph.nodes.length with hNfdef
  set u := cursorOf Nf done with hu
  set cs := fz.childrensOf u with hcs
  have hu_le : u ≤ Nf := by
    rcases List.mem_cons.mp (cursorOf_mem Nf done) with h | h
    · omega
    · exact le_of_lt (r2 u h)
  have hcs_nodup : cs.Nodup := fz_child_nodup hwf hok u (by omega)
  have hcs_lt : ∀ c ∈ cs, c < Nf := by
    intro c hc
    have := (fz_child_lt_ne hwf hok u (by omega) c hc).1
    omega
  have hu_pars : ∀ c, u ∈ fz.fparents c ↔ c ∈ cs := by
    intro c
    rw [mem_fparents]
    constructor
    · rintro ⟨-, h⟩; exact h
    · intro h; exact ⟨hu_le, h⟩
  have hu_notPL : u ∉ PLof Nf done := cursorOf_not_mem_PLof r1 r2
  have hNdone : PLof Nf done ++ [u] = Nf :: done := PLof_append_cursor Nf done
  have hdeg : ∀ c ∈ cs, 1 ≤ st.counters.getD c 0 := by
    intro c hc
    have h5 := r5 c (hcs_lt c hc)
    have hflt := filter_length_lt (p := fun p => decide (p ∈ PLof Nf done))
      ((hu_pars c).mpr hc) (decide_eq_false hu_notPL)
    omega
  obtain ⟨p1, p2, p3, p4, p5, p6⟩ := dispatchInner_go cs st hcs_nodup hdeg
  set E := cs.filter (fun c => decide (st.counters.getD c 0 = 1)) with hE
  have hphase : stφ = cs.foldl dispatchChild st := hstφ
  rw [hphase]
  have hE_mem : ∀ y, y ∈ E ↔ y ∈ cs ∧ st.counters.getD y 0 = 1 := by
    intro y
    rw [hE]
    simp [List.mem_filter]
  have hE_cs : ∀ y ∈ E, y ∈ cs := fun y hy => ((hE_mem y).mp hy).1
  have hdispφ : dispatchedOf (cs.foldl dispatchChild st).events =
      dispatchedOf st.events ++ E := by
    rw [p6, dispatchedOf_append, dispatchedOf_dispatch_map]
  have hconsφ : consumedOf (cs.foldl dispatchChild st).events = done := by
    rw [p6, consumedOf_append, consumedOf_dispatch_map, List.append_nil, r6]
  -- the flip of the processed-membership filter at the cursor
  have hflip : ∀ c, c ∈ cs →
      ((fz.fparents c).filter (fun p => decide (p ∈ Nf :: done))).length =
      ((fz.fparents c).filter (fun p => decide (p ∈ PLof Nf done))).length + 1 := by
    intro c hc
    rw [← hNdone]
    apply filter_length_flip_one (fparents_nodup fz c) ((hu_pars c).mpr hc)
      (decide_eq_false hu_notPL)
      (decide_eq_true (List.mem_append_right _ (List.mem_singleton.mpr rfl)))
    intro y _ hyu
    apply decide_eq_decide.mpr
    rw [List.mem_append, List.mem_singleton]
    constructor
    · intro h; exact Or.inl h
    · rintro (h | h)
      · exact h
      · exact absurd h hyu
  have hsame : ∀ c, c ∉ cs →
      ((fz.fparents c).filter (fun p => decide (p ∈ Nf :: done))) =
      ((fz.fparents c).filter (fun p => decide (p ∈ PLof Nf done))) := by
    intro c hc
    apply List.filter_congr
    intro y hy
    apply decide_eq_decide.mpr
    rw [← hNdone, List.mem_append, List.mem_singleton]
    constructor
    · rintro (h | h)
      · exact h
      · exfalso
        rw [h] at hy
        exact hc ((hu_pars c).mp hy)
    · intro h; exact Or.inl h
  have hcounterφ : ∀ c, c < Nf → (cs.foldl dispatchChild st).counters.getD c 0 +
      ((fz.fparents c).filter (fun p => decide (p ∈ Nf :: done))).length =
      (fz.fparents c).length := by
    intro c hc
    by_cases hccs : c ∈ cs
    · rw [p4 c hccs, hflip c hccs]
      have h5 := r5 c hc
      have hdp := hdeg c hccs
      omega
    · rw [p3 c hccs, hsame c hccs]
      exact r5 c hc
  have hE_not_disp : ∀ y ∈ E, y ∉ dispatchedOf st.events := by
    intro y hy hmem
    have := (r8 y).mp hmem
    exact hu_notPL (this.2 u ((hu_pars y).mpr (hE_cs y hy)))
  have hE_nodup : E.Nodup := hcs_nodup.filter _
  have hdispφ_nodup : (dispatchedOf (cs.foldl dispatchChild st).events).Nodup := by
    rw [hdispφ]
    exact List.Nodup.append r7 hE_nodup (fun a ha hae => hE_not_disp a hae ha)
  have hE_sub : ∀ y ∈ E, ∀ p ∈ fz.fparents y, p ∈ Nf :: done := by
    intro y hy p hp
    obtain ⟨hycs, hydeg⟩ := (hE_mem y).mp hy
    have h5 := r5 y (hcs_lt y hycs)
    have hlen : ((fz.fparents y).filter (fun p => decide (p ∈ Nf :: done))).length =
        (fz.fparents y).length := by
      rw [hflip y hycs]
      omega
    have heq : (fz.fparents y).filter (fun p => decide (p ∈ Nf :: done)) =
        fz.fparents y := (List.filter_sublist _).eq_of_length hlen
    exact of_decide_eq_true (List.filter_eq_self.mp heq p hp)
  have hE_of_sub : ∀ y ∈ cs, (∀ p ∈ fz.fparents y, p ∈ Nf :: done) → y ∈ E := by
    intro y hycs hall
    have h5 := r5 y (hcs_lt y hycs)
    have heq : (fz.fparents y).filter (fun p => decide (p ∈ Nf :: done)) =
        fz.fparents y :=
      List.filter_eq_self.mpr (fun p hp => decide_eq_true (hall p hp))
    have hlen := congrArg List.length heq
    rw [hflip y hycs] at hlen
    have hpos : 1 ≤ (fz.fparents y).length :=
      List.length_pos.mpr (List.ne_nil_of_mem ((hu_pars y).mpr hycs))
    exact (hE_mem y).mpr ⟨hycs, by omega⟩
  have hdispφ_iff : ∀ c, c ∈ dispatchedOf (cs.foldl dispatchChild st).events ↔
      (c < Nf ∧ ∀ p ∈ fz.fparents c, p ∈ Nf :: done) := by
    intro c
    rw [hdispφ, List.mem_append]
    constructor
    · rintro (h | h)
      · obtain ⟨hc, hsub⟩ := (r8 c).mp h
        refine ⟨hc, fun p hp => ?_⟩
        rw [← hNdone]
        exact List.mem_append_left _ (hsub p hp)
      · exact ⟨hcs_lt c (hE_cs c h), hE_sub c h⟩
    · rintro ⟨hc, hsub⟩
      by_cases hccs : c ∈ cs
      · exact Or.inr (hE_of_sub c hccs hsub)
      · left
        apply (r8 c).mpr
        refine ⟨hc, fun p hp => ?_⟩
        have := hsub p hp
        rw [← hNdone, List.mem_append, List.mem_singleton] at this
        rcases this with h | h
        · exact h
        · exfalso
          rw [h] at hp
          exact hccs ((hu_pars c).mp hp)
  have hpendφ : (cs.foldl dispatchChild st).pending =
      (dispatchedOf (cs.foldl dispatchChild st).events).filter
        (fun y => decide (y ∉ done)) := by
    rw [p5, r9, hdispφ, List.filter_append]
    congr 1
    apply (List.filter_eq_self.mpr _).symm
    intro y hy
    apply decide_eq_true
    intro hmem
    exact hE_not_disp y hy (r10 y hmem)
  have htempφ : ∀ t c, (cs.foldl dispatchChild st).events.getD t (.consume 0) =
      .dispatch c →
      ∀ p ∈ fz.fparents c, p < Nf →
        REvent.consume p ∈ (cs.foldl dispatchChild st).events.take t := by
    rw [p6]
    intro t c hget p hp hplt
    rcases Nat.lt_or_ge t st.events.length with htl | htl
    · rw [getD_append_left htl] at hget
      rw [List.take_append_of_le_length (by omega)]
      exact r11 t c hget p hp hplt
    · rw [getD_append_right htl] at hget
      rcases Nat.lt_or_ge (t - st.events.length) (E.map REvent.dispatch).length
        with hm | hm
      · have hmE : t - st.events.length < E.length := by
          rw [List.length_map] at hm
          exact hm
        have hgm : (E.map REvent.dispatch).getD (t - st.events.length) (.consume 0) =
            REvent.dispatch (E.getD (t - st.events.length) 0) := getD_map hmE
        rw [hgm] at hget
        have hcE : c ∈ E := by
          have : E.getD (t - st.events.length) 0 = c := by
            have h := hget
            simp only [REvent.dispatch.injEq] at h
            exact h
          rw [← this]
          exact getD_mem hmE
        have hpdone : p ∈ done := by
          have := hE_sub c hcE p hp
          rcases List.mem_cons.mp this with h | h
          · omega
          · exact h
        have hcons : REvent.consume p ∈ st.events := by
          apply mem_consumedOf.mp
          rw [r6]
          exact hpdone
        have ht_split : t = st.events.length + (t - st.events.length) := by omega
        rw [ht_split, List.take_append]
        exact List.mem_append_left _ hcons
      · exfalso
        rw [List.getD_eq_getElem?_getD, List.getElem?_eq_none (by omega)] at hget
        exact absurd hget (by simp)
  have hundφ : (cs.foldl dispatchChild st).underflow = false := by
    rw [p1]
    exact r12
  have hmono : ∀ x ∈ dispatchedOf st.events,
      x ∈ dispatchedOf (cs.foldl dispatchChild st).events := by
    intro x hx
    rw [hdispφ]
    exact List.mem_append_left _ hx
  exact ⟨by rw [p2]; exact r4, hcounterφ, hconsφ, hdispφ_nodup, hdispφ_iff, hpendφ,
    htempφ, hundφ, hmono⟩

/-- Soundness of the run loop: any completed execution (any possible
arrival order) satisfies `OutSound`. -/
theorem runLoop_sound {g : Graph} {fz : FrozenGraph} {outcome : Nat → TaskOutcome}
    (hwf : WF g) (hok : g.froze = .ok fz) :
    ∀ (fuel : Nat) (done : List Nat) (st : RunState) (sched : List Nat) (out : RunOutcome),
      RInv fz outcome done st →
      fuel + done.length = fz.graph.nodes.length →
      runLoop fz outcome fuel
        (fz.childrensOf (cursorOf fz.graph.nodes.length done)) st sched = some out →
      OutSound fz outcome out := by
  intro fuel
  induction fuel with
  | zero =>
    intro done st sched out hinv hfuel hrun
    obtain ⟨r1, r2, r3, r4, r5, r6, r7, r8, r9, r10, r11, r12⟩ := hinv
    rw [runLoop_zero] at hrun
    simp only [Option.some.injEq] at hrun
    subst hrun
    have hdone_full : ∀ i, i < fz.graph.nodes.length → i ∈ done :=
      nodup_lt_full r1 r2 (by omega)
    refine ⟨r12, r7, ?_, ?_, ?_, ?_, r11, ?_, ?_, ?_⟩
    · intro c hc
      exact ((r8 c).mp hc).1
    · show (consumedOf st.events).Nodup
      rw [r6]
      exact r1
    · intro y hy
      show y ∈ dispatchedOf st.events
      rw [r6] at hy
      exact r10 y hy
    · show st.pending.map (eventFor outcome) = _
      rw [r9, r6]
    · intro _
      refine ⟨?_, ?_, ?_⟩
      · intro i
        constructor
        · intro h
          exact ((r8 i).mp h).1
        · intro h
          exact r10 i (hdone_full i h)
      · intro i
        show i ∈ consumedOf st.events ↔ _
        rw [r6]
        exact ⟨fun h => r2 i h, fun h => hdone_full i h⟩
      · show st.pending.map (eventFor outcome) = []
        rw [r9]
        have : (dispatchedOf st.events).filter (fun y => decide (y ∉ done)) = [] := by
          apply List.filter_eq_nil_iff.mpr
          intro y hy
          have := hdone_full y ((r8 y).mp hy).1
          simp [this]
        rw [this]
        rfl
    · intro nm e h
      exact absurd h (by simp)
    · intro nm pp h
      exact absurd h (by simp)
  | succ fuel ih =>
    intro done st sched out hinv hfuel hrun
    obtain ⟨f1, f2, f3, f4, f5, f6, f7, f8, f9⟩ := phase_facts hwf hok hinv _ rfl
    obtain ⟨r1, r2, r3, r4, r5, r6, r7, r8, r9, r10, r11, r12⟩ := hinv
    set Nf := fz.graph.nodes.length with hNfdef
    set u := cursorOf Nf done with hu
    set stφ := dispatchPhase st (fz.childrensOf u) with hstφ
    cases sched with
    | nil =>
      rw [runLoop_succ_nil] at hrun
      exact absurd hrun (by simp)
    | cons x rest =>
      rw [runLoop_succ_cons] at hrun
      by_cases hxp : x ∈ stφ.pending
      swap
      · rw [if_neg hxp] at hrun
        exact absurd hrun (by simp)
      rw [if_pos hxp] at hrun
      have hx_mem := hxp
      rw [f6] at hx_mem
      have hx_disp : x ∈ dispatchedOf stφ.events := (List.mem_filter.mp hx_mem).1
      have hx_notdone : x ∉ done := of_decide_eq_true (List.mem_filter.mp hx_mem).2
      have hx_lt : x < Nf := ((f5 x).mp hx_disp).1
      have hdisp2 : dispatchedOf (stφ.events ++ [REvent.consume x]) =
          dispatchedOf stφ.events := by
        rw [dispatchedOf_append, dispatchedOf_consume, List.append_nil]
      have hcons2 : consumedOf (stφ.events ++ [REvent.consume x]) = done ++ [x] := by
        rw [consumedOf_append, consumedOf_consume, f3]
      have hpend2 : stφ.pending.erase x =
          (dispatchedOf (stφ.events ++ [REvent.consume x])).filter
            (fun y => decide (y ∉ done ++ [x])) := by
        rw [hdisp2, f6]
        have hnd : ((dispatchedOf stφ.events).filter
            (fun y => decide (y ∉ done))).Nodup := f4.filter _
        rw [List.Nodup.erase_eq_filter hnd, List.filter_filter]
        apply List.filter_congr
        intro a _
        by_cases hax : a = x
        · subst hax
          simp
        · by_cases had : a ∈ done
          · simp [hax, had]
          · simp [hax, had]
      have htemp2 : ∀ t c,
          (stφ.events ++ [REvent.consume x]).getD t (.consume 0) = .dispatch c →
          ∀ p ∈ fz.fparents c, p < Nf →
            REvent.consume p ∈ (stφ.events ++ [REvent.consume x]).take t := by
        intro t c hget p hp hplt
        rcases Nat.lt_or_ge t stφ.events.length with htl | htl
        · rw [getD_append_left htl] at hget
          rw [List.take_append_of_le_length (by omega)]
          exact f7 t c hget p hp hplt
        · exfalso
          rw [getD_append_right htl] at hget
          rcases Nat.lt_or_ge (t - stφ.events.length) 1 with hm | hm
          · have hz : t - stφ.events.length = 0 := by omega
            rw [hz] at hget
            exact absurd hget (by simp)
          · rw [List.getD_eq_getElem?_getD,
              List.getElem?_eq_none (by simp; omega)] at hget
            exact absurd hget (by simp)
      cases houtx : outcome x with
      | succeeds =>
        rw [houtx] at hrun
        have hcursor : fz.childrensOf x = fz.childrensOf (cursorOf Nf (done ++ [x])) := by
          rw [cursorOf_concat]
        rw [hcursor] at hrun
        refine ih (done ++ [x]) _ rest out ?_ ?_ hrun
        · refine ⟨?_, ?_, ?_, f1, ?_, hcons2, ?_, ?_, hpend2, ?_, htemp2, f8⟩
          · refine List.Nodup.append r1 (List.nodup_singleton x) ?_
            intro a ha hax
            rw [List.mem_singleton] at hax
            exact hx_notdone (hax ▸ ha)
          · intro y hy
            rcases List.mem_append.mp hy with h | h
            · exact r2 y h
            · rw [List.mem_singleton] at h
              subst h
              exact hx_lt
          · intro y hy
            rcases List.mem_append.mp hy with h | h
            · exact r3 y h
            · rw [List.mem_singleton] at h
              subst h
              exact houtx
          · intro c hc
            show stφ.counters.getD c 0 + _ = _
            rw [PLof_concat]
            exact f2 c hc
          · show (dispatchedOf (stφ.events ++ [REvent.consume x])).Nodup
            rw [hdisp2]
            exact f4
          · intro c
            show c ∈ dispatchedOf (stφ.events ++ [REvent.consume x]) ↔ _
            rw [hdisp2, PLof_concat]
            exact f5 c
          · intro y hy
            show y ∈ dispatchedOf (stφ.events ++ [REvent.consume x])
            rw [hdisp2]
            rcases List.mem_append.mp hy with h | h
            · exact f9 y (r10 y h)
            · rw [List.mem_singleton] at h
              subst h
              exact hx_disp
        · rw [List.length_append]
          simp only [List.length_cons, List.length_nil]
          omega
      | fails e =>
        rw [houtx] at hrun
        simp only [Option.some.injEq] at hrun
        subst hrun
        refine ⟨f8, ?_, ?_, ?_, ?_, ?_, ?_, ?_, ?_, ?_⟩
        · show (dispatchedOf (stφ.events ++ [REvent.consume x])).Nodup
          rw [hdisp2]
          exact f4
        · intro c hc
          show c < Nf
          rw [show dispatchedOf (stφ.events ++ [REvent.consume x]) =
            dispatchedOf stφ.events from hdisp2] at hc
          exact ((f5 c).mp hc).1
        · show (consumedOf (stφ.events ++ [REvent.consume x])).Nodup
          rw [hcons2]
          refine List.Nodup.append r1 (List.nodup_singleton x) ?_
          intro a ha hax
          rw [List.mem_singleton] at hax
          exact hx_notdone (hax ▸ ha)
        · intro y hy
          show y ∈ dispatchedOf (stφ.events ++ [REvent.consume x])
          rw [hcons2] at hy
          rw [hdisp2]
          rcases List.mem_append.mp hy with h | h
          · exact f9 y (r10 y h)
          · rw [List.mem_singleton] at h
            subst h
            exact hx_disp
        · show (stφ.pending.erase x).map (eventFor outcome) = _
          rw [hpend2, hcons2]
        · exact htemp2
        · intro h
          exact absurd h (by simp)
        · intro nm e' h
          simp only [Except.error.injEq, Err.RuntimeFailed.injEq] at h
          refine ⟨x, hx_lt, h.1.symm, ?_, ?_⟩
          · rw [houtx, h.2]
          · show x ∈ dispatchedOf (stφ.events ++ [REvent.consume x])
            rw [hdisp2]
            exact hx_disp
        · intro nm pp h
          exact absurd h (by simp)
      | panics pp =>
        rw [houtx] at hrun
        simp only [Option.some.injEq] at hrun
        subst hrun
        refine ⟨f8, ?_, ?_, ?_, ?_, ?_, ?_, ?_, ?_, ?_⟩
        · show (dispatchedOf (stφ.events ++ [REvent.consume x])).Nodup
          rw [hdisp2]
          exact f4
        · intro c hc
          show c < Nf
          rw [show dispatchedOf (stφ.events ++ [REvent.consume x]) =
            dispatchedOf stφ.events from hdisp2] at hc
          exact ((f5 c).mp hc).1
        · show (consumedOf (stφ.events ++ [REvent.consume x])).Nodup
          rw [hcons2]
          refine List.Nodup.append r1 (List.nodup_singleton x) ?_
          intro a ha hax
          rw [List.mem_singleton] at hax
          exact hx_notdone (hax ▸ ha)
        · intro y hy
          show y ∈ dispatchedOf (stφ.events ++ [REvent.consume x])
          rw [hcons2] at hy
          rw [hdisp2]
          rcases List.mem_append.mp hy with h | h
          · exact f9 y (r10 y h)
          · rw [List.mem_singleton] at h
            subst h
            exact hx_disp
        · show (stφ.pending.erase x).map (eventFor outcome) = _
          rw [hpend2, hcons2]
        · exact htemp2
        · intro h
          exact absurd h (by simp)
        · intro nm e' h
          exact absurd h (by simp)
        · intro nm pp' h
          simp only [Except.error.injEq, Err.RuntimePanicked.injEq] at h
          refine ⟨x, hx_lt, h.1.symm, ?_, ?_⟩
          · rw [houtx, h.2]
          · show x ∈ dispatchedOf (stφ.events ++ [REvent.consume x])
            rw [hdisp2]
            exact hx_disp

/-- Consuming the `Done` event of a pending node re-establishes the loop
invariant with the node appended to the history. -/
theorem rinv_consume {g : Graph} {fz : FrozenGraph} {outcome : Nat → TaskOutcome}
    {done : List Nat} {st : RunState} (hwf : WF g) (hok : g.froze = .ok fz)
    (hinv : RInv fz outcome done st) {x : Nat}
    (hxp : x ∈ (dispatchPhase st
      (fz.childrensOf (cursorOf fz.graph.nodes.length done))).pending)
    (houtx : outcome x = .succeeds) :
    RInv fz outcome (done ++ [x])
      { dispatchPhase st (fz.childrensOf (cursorOf fz.graph.nodes.length done)) with
          pending := (dispatchPhase st
            (fz.childrensOf (cursorOf fz.graph.nodes.length done))).pending.erase x,
          events := (dispatchPhase st
            (fz.childrensOf (cursorOf fz.graph.nodes.length done))).events ++
              [REvent.consume x] } := by
  obtain ⟨f1, f2, f3, f4, f5, f6, f7, f8, f9⟩ := phase_facts hwf hok hinv _ rfl
  obtain ⟨r1, r2, r3, r4, r5, r6, r7, r8, r9, r10, r11, r12⟩ := hinv
  set Nf := fz.graph.nodes.length with hNfdef
  set stφ := dispatchPhase st (fz.childrensOf (cursorOf Nf done)) with hstφ
  have hx_mem := hxp
  rw [f6] at hx_mem
  have hx_disp : x ∈ dispatchedOf stφ.events := (List.mem_filter.mp hx_mem).1
  have hx_notdone : x ∉ done := of_decide_eq_true (List.mem_filter.mp hx_mem).2
  have hx_lt : x < Nf := ((f5 x).mp hx_disp).1
  have hdisp2 : dispatchedOf (stφ.events ++ [REvent.consume x]) =
      dispatchedOf stφ.events := by
    rw [dispatchedOf_append, dispatchedOf_consume, List.append_nil]
  have hcons2 : consumedOf (stφ.events ++ [REvent.consume x]) = done ++ [x] := by
    rw [consumedOf_append, consumedOf_consume, f3]
  have hpend2 : stφ.pending.erase x =
      (dispatchedOf (stφ.events ++ [REvent.consume x])).filter
        (fun y => decide (y ∉ done ++ [x])) := by
    rw [hdisp2, f6]
    have hnd : ((dispatchedOf stφ.events).filter
        (fun y => decide (y ∉ done))).Nodup := f4.filter _
    rw [List.Nodup.erase_eq_filter hnd, List.filter_filter]
    apply List.filter_congr
    intro a _
    by_cases hax : a = x
    · subst hax
      simp
    · by_cases had : a ∈ done
      · simp [hax, had]
      · simp [hax, had]
  have htemp2 : ∀ t c,
      (stφ.events ++ [REvent.consume x]).getD t (.consume 0) = .dispatch c →
      ∀ p ∈ fz.fparents c, p < Nf →
        REvent.consume p ∈ (stφ.events ++ [REvent.consume x]).take t := by
    intro t c hget p hp hplt
    rcases Nat.lt_or_ge t stφ.events.length with htl | htl
    · rw [getD_append_left htl] at hget
      rw [List.take_append_of_le_length (by omega)]
      exact f7 t c hget p hp hplt
    · exfalso
      rw [getD_append_right htl] at hget
      rcases Nat.lt_or_ge (t - stφ.events.length) 1 with hm | hm
      · have hz : t - stφ.events.length = 0 := by omega
        rw [hz] at hget
        exact absurd hget (by simp)
      · rw [List.getD_eq_getElem?_getD, List.getElem?_eq_none (by simp; omega)] at hget
        exact absurd hget (by simp)
  refine ⟨?_, ?_, ?_, f1, ?_, hcons2, ?_, ?_, hpend2, ?_, htemp2, f8⟩
  · refine List.Nodup.append r1 (List.nodup_singleton x) ?_
    intro a ha hax
    rw [List.mem_singleton] at hax
    exact hx_notdone (hax ▸ ha)
  · intro y hy
    rcases List.mem_append.mp hy with h | h
    · exact r2 y h
    · rw [List.mem_singleton] at h
      subst h
      exact hx_lt
  · intro y hy
    rcases List.mem_append.mp hy with h | h
    · exact r3 y h
    · rw [List.mem_singleton] at h
      subst h
      exact houtx
  · intro c hc
    show stφ.counters.getD c 0 + _ = _
    rw [PLof_concat]
    exact f2 c hc
  · show (dispatchedOf (stφ.events ++ [REvent.consume x])).Nodup
    rw [hdisp2]
    exact f4
  · intro c
    show c ∈ dispatchedOf (stφ.events ++ [REvent.consume x]) ↔ _
    rw [hdisp2, PLof_concat]
    exact f5 c
  · intro y hy
    show y ∈ dispatchedOf (stφ.events ++ [REvent.consume x])
    rw [hdisp2]
    rcases List.mem_append.mp hy with h | h
    · exact f9 y (r10 y h)
    · rw [List.mem_singleton] at h
      subst h
      exact hx_disp

/-- Completeness: with all tasks succeeding, consuming events in the Kahn
order is always possible, so the loop runs to completion. -/
theorem runLoop_complete {g : Graph} {fz : FrozenGraph} {outcome : Nat → TaskOutcome}
    (hwf : WF g) (hok : g.froze = .ok fz) (hall : ∀ i, outcome i = .succeeds) :
    ∀ (fuel k : Nat) (st : RunState), fuel + k = fz.graph.nodes.length →
      RInv fz outcome ((kahnOrder g).take k) st →
      ∃ out, runLoop fz outcome fuel
        (fz.childrensOf (cursorOf fz.graph.nodes.length ((kahnOrder g).take k)))
        st ((kahnOrder g).drop k) = some out ∧ out.result = .ok () := by
  have hsucc := (froze_ok_inv hok).2
  obtain ⟨hτlen, hτnd, hτfull, hτtopo, hτlt⟩ := kahnOrder_spec hwf hsucc
  have hNf : fz.graph.nodes.length = g.nodes.length := fz_len hwf hok
  intro fuel
  induction fuel with
  | zero =>
    intro k st hk hinv
    exact ⟨_, runLoop_zero fz outcome _ st _, rfl⟩
  | succ fuel ih =>
    intro k st hk hinv
    have hkτ : k < (kahnOrder g).length := by omega
    set x := (kahnOrder g).getD k 0 with hx
    have hdrop : (kahnOrder g).drop k = x :: (kahnOrder g).drop (k + 1) := by
      rw [List.drop_eq_getElem_cons hkτ]
      congr 1
      simp [hx, List.getD_eq_getElem?_getD, List.getElem?_eq_getElem hkτ]
    have htake : (kahnOrder g).take (k + 1) = (kahnOrder g).take k ++ [x] := by
      rw [List.take_succ]
      congr 1
      simp [hx, List.getElem?_eq_getElem hkτ, List.getD_eq_getElem?_getD]
    obtain ⟨f1, f2, f3, f4, f5, f6, f7, f8, f9⟩ := phase_facts hwf hok hinv _ rfl
    set Nf := fz.graph.nodes.length with hNfdef
    set done := (kahnOrder g).take k with hdone
    set stφ := dispatchPhase st (fz.childrensOf (cursorOf Nf done)) with hstφ
    have hx_lt : x < Nf := by
      rw [hNf]
      exact hτlt x (getD_mem hkτ)
    have hx_notdone : x ∉ done := nodup_getD_not_mem_take hτnd hkτ
    have hx_sub : ∀ p ∈ fz.fparents x, p ∈ Nf :: done := by
      intro p hp
      have hple := (mem_fparents.mp hp).1
      rcases Nat.lt_or_ge p Nf with hplt | hpge
      · have hpreal : p ∈ parentsIn g.nodes x :=
          (fz_fparents_real hwf hok p x (by omega)).mp hp
        exact List.mem_cons_of_mem _ (hτtopo k hkτ p hpreal)
      · have : p = Nf := by omega
        rw [this]
        exact List.mem_cons_self _ _
    have hx_disp : x ∈ dispatchedOf stφ.events := (f5 x).mpr ⟨hx_lt, hx_sub⟩
    have hx_pend : x ∈ stφ.pending := by
      rw [f6, List.mem_filter]
      exact ⟨hx_disp, decide_eq_true hx_notdone⟩
    rw [hdrop, runLoop_succ_cons, if_pos hx_pend, hall x]
    have hnext := rinv_consume hwf hok hinv hx_pend (hall x)
    rw [← htake] at hnext
    have hcursor : fz.childrensOf x =
        fz.childrensOf (cursorOf Nf ((kahnOrder g).take (k + 1))) := by
      rw [htake, cursorOf_concat]
    obtain ⟨out, hout, hres⟩ := ih (k + 1) _ (by omega) hnext
    refine ⟨out, ?_, hres⟩
    rw [hcursor]
    exact hout

/-- `Scheduler::run` in terms of the loop. -/
theorem run_as_loop (fz : FrozenGraph) (outcome : Nat → TaskOutcome) (sched : List Nat) :
    fz.run outcome sched = runLoop fz outcome fz.graph.nodes.length
      (fz.childrensOf (cursorOf fz.graph.nodes.length []))
      { counters := fz.graph.nodes.map (fun n => n.parent_count),
        pending := [], events := [], underflow := false } sched := by
  unfold FrozenGraph.run
  congr 1
  rw [cursorOf_nil]
  unfold FrozenGraph.childrensOf
  rw [if_pos rfl]

/-- Top-level soundness of `run`. -/
theorem run_sound {g : Graph} {fz : FrozenGraph} {outcome : Nat → TaskOutcome}
    {sched : List Nat} {out : RunOutcome} (hwf : WF g) (hok : g.froze = .ok fz)
    (hrun : fz.run outcome sched = some out) : OutSound fz outcome out := by
  rw [run_as_loop] at hrun
  exact runLoop_sound hwf hok _ [] _ sched out (rinit hwf hok outcome) (by simp) hrun

/-- Top-level completeness of `run`: with every task succeeding, the Kahn
order is a possible arrival order that runs to completion. -/
theorem run_complete {g : Graph} {fz : FrozenGraph} {outcome : Nat → TaskOutcome}
    (hwf : WF g) (hok : g.froze = .ok fz) (hall : ∀ i, outcome i = .succeeds) :
    ∃ out, fz.run outcome (kahnOrder g) = some out ∧ out.result = .ok () := by
  rw [run_as_loop]
  have h := runLoop_complete hwf hok hall fz.graph.nodes.length 0
    { counters := fz.graph.nodes.map (fun n => n.parent_count),
      pending := [], events := [], underflow := false }
    (by omega) (by rw [List.take_zero]; exact rinit hwf hok outcome)
  rw [List.take_zero, List.drop_zero] at h
  exact h

/-! ### The cycle-report string -/

/-- Joining a list of strings with the separator `", "` (the shape the
cycle report of `Graph::froze` gives its node-name list). -/
def joinComma : List String → String
  | [] => ""
  | [x] => x
  | x :: y :: xs => x ++ ", " ++ joinComma (y :: xs)

theorem string_length_pos {s : String} (h : s ≠ "") : 0 < s.length := by
  cases s with
  | mk d =>
    cases d with
    | nil => exact absurd rfl h
    | cons c cs => simp [String.length]

theorem joinComma_concat (x : String) :
    ∀ (as : List String) (a : String),
      joinComma (a :: as ++ [x]) = joinComma (a :: as) ++ ", " ++ x := by
  intro as
  induction as with
  | nil => intro a; rfl
  | cons b bs ih =>
    intro a
    show a ++ ", " ++ joinComma ((b :: bs) ++ [x]) =
      a ++ ", " ++ joinComma (b :: bs) ++ ", " ++ x
    rw [ih b]
    simp [String.append_assoc]

theorem joinComma_length_ge (a : String) :
    ∀ as : List String, a.length ≤ (joinComma (a :: as)).length := by
  intro as
  cases as with
  | nil => exact le_refl _
  | cons b bs =>
    show a.length ≤ (a ++ ", " ++ joinComma (b :: bs)).length
    rw [String.length_append, String.length_append]
    omega

/-- The report-building fold of `Graph::froze`, in general form: starting
from a bracket followed by an already-joined prefix, it appends the names
of the retained indices, comma-separated. -/
theorem ringFold_go (p : Nat → Prop) [DecidablePred p] (nameOf : Nat → String) :
    ∀ (l : List Nat), (∀ i ∈ l, p i → nameOf i ≠ "") →
    ∀ (acc : List String), (∀ s ∈ acc, s ≠ "") →
    l.foldl (fun s index => if p index then
        (if 1 < s.length then s ++ ", " else s) ++ nameOf index else s)
      ("[" ++ joinComma acc)
      = "[" ++ joinComma (acc ++ (l.filter (fun i => decide (p i))).map nameOf) := by
  intro l
  induction l with
  | nil =>
    intro _ acc _
    simp
  | cons i t ih =>
    intro hne acc hacc
    rw [List.foldl_cons, List.filter_cons]
    by_cases hp : p i
    · rw [if_pos (show decide (p i) = true from decide_eq_true hp)]
      have hni : nameOf i ≠ "" := hne i (List.mem_cons_self i t) hp
      cases acc with
      | nil =>
        have hlen : ¬ 1 < ("[" ++ joinComma ([] : List String)).length := by
          rw [String.length_append]
          show ¬ 1 < ("[" : String).length + ("" : String).length
          decide
        rw [if_pos hp, if_neg hlen]
        have hstep : ("[" ++ joinComma ([] : List String)) ++ nameOf i =
            "[" ++ joinComma [nameOf i] := by
          rw [String.append_assoc]
          rfl
        rw [hstep, ih (fun j hj => hne j (List.mem_cons_of_mem i hj)) [nameOf i]
          (fun s hs => by rw [List.mem_singleton] at hs; rw [hs]; exact hni)]
        rfl
      | cons a as =>
        have ha : a ≠ "" := hacc a (List.mem_cons_self a as)
        have hlen : 1 < ("[" ++ joinComma (a :: as)).length := by
          rw [String.length_append]
          have h1 := joinComma_length_ge a as
          have h2 := string_length_pos ha
          have h3 : ("[" : String).length = 1 := rfl
          omega
        rw [if_pos hp, if_pos hlen]
        have hstep : ("[" ++ joinComma (a :: as)) ++ ", " ++ nameOf i =
            "[" ++ joinComma ((a :: as) ++ [nameOf i]) := by
          rw [joinComma_concat (nameOf i) as a, String.append_assoc "[" _ ", ",
            String.append_assoc "[" _ (nameOf i),
            String.append_assoc (joinComma (a :: as)) ", " (nameOf i)]
        rw [hstep, ih (fun j hj => hne j (List.mem_cons_of_mem i hj))
          ((a :: as) ++ [nameOf i])
          (fun s hs => by
            rcases List.mem_append.mp hs with h | h
            · exact hacc s h
            · rw [List.mem_singleton] at h; rw [h]; exact hni)]
        rw [List.append_assoc]
        rfl
    · rw [if_neg (show ¬ decide (p i) = true from by simp [hp]), if_neg hp]
      exact ih (fun j hj => hne j (List.mem_cons_of_mem i hj)) acc hacc

/-- The indices `Graph::froze` reports on failure: those whose remaining
in-degree is still positive, in insertion order. -/
def unresolvedIndices (g : Graph) : List Nat :=
  (List.range g.nodes.length).filter
    (fun i => decide (0 < (frozeFinal g).in_degrees.getD i 0))

/-- The cycle-report string is exactly the bracketed, comma-separated list
of the names of the nodes left with positive remaining in-degree, in
insertion order. -/
theorem frozeRing_eq {g : Graph} (hwf : WF g) :
    frozeRing g = "[" ++ joinComma
      ((unresolvedIndices g).map (fun i => (g.nodes.getD i Node.dflt).name)) ++ "]" := by
  obtain ⟨-, -, -, -, hE⟩ := frozeInit_spec hwf
  have hne : ∀ i ∈ List.range g.nodes.length,
      0 < (frozeFinal g).in_degrees.getD i 0 →
      ((frozeInit g).2.1.nodes.getD i Node.dflt).name ≠ "" := by
    intro i hi _
    have hiN : i < g.nodes.length := List.mem_range.mp hi
    rw [hE i, if_pos hiN, bumpNode_name]
    exact hwf.2.2.1 _ (getD_mem hiN)
  have hfold : (List.range g.nodes.length).foldl (fun s index =>
      if 0 < (frozeFinal g).in_degrees.getD index 0 then
        (if 1 < s.length then s ++ ", " else s) ++
          ((frozeInit g).2.1.nodes.getD index Node.dflt).name
      else s) ("[" ++ joinComma []) =
      "[" ++ joinComma ([] ++ ((List.range g.nodes.length).filter
        (fun i => decide (0 < (frozeFinal g).in_degrees.getD i 0))).map
          (fun i => ((frozeInit g).2.1.nodes.getD i Node.dflt).name)) :=
    ringFold_go _ _ _ hne [] (fun s hs => absurd hs (List.not_mem_nil s))
  have hinit : "[" ++ joinComma [] = "[" := by
    show "[" ++ "" = "["
    simp
  rw [hinit] at hfold
  have hmap : (unresolvedIndices g).map
      (fun i => ((frozeInit g).2.1.nodes.getD i Node.dflt).name) =
      (unresolvedIndices g).map (fun i => (g.nodes.getD i Node.dflt).name) := by
    apply List.map_congr_left
    intro i hi
    have hiN : i < g.nodes.length :=
      List.mem_range.mp (List.mem_filter.mp hi).1
    rw [hE i, if_pos hiN, bumpNode_name]
  unfold frozeRing
  rw [hfold, List.nil_append]
  show "[" ++ joinComma ((unresolvedIndices g).map
    (fun i => ((frozeInit g).2.1.nodes.getD i Node.dflt).name)) ++ "]" = _
  rw [hmap]

/-! ### Concrete example graphs (built through the construction API) -/

/-- The graph a successful construction step yields. -/
def gOf (e : Except Err Graph) : Graph := e.toOption.getD Graph.new

def fzDflt : FrozenGraph := { graph := Graph.new, root := Node.dflt }

/-- The frozen graph a successful `froze` yields. -/
def fzOf (g : Graph) : FrozenGraph := g.froze.toOption.getD fzDflt

/-- One node `A`. -/
def gA : Graph := gOf (Graph.new.add_node "A")

def fzA : FrozenGraph := fzOf gA

/-- Two independent nodes `A`, `B`. -/
def gAB : Graph := gOf (gA.add_node "B")

def fzAB : FrozenGraph := fzOf gAB

/-- The linear chain `A → B → C → D`. -/
def gChain3 : Graph := gOf (gAB.add_node "C")

def gChain4 : Graph := gOf (gChain3.add_node "D")

def gChain5 : Graph := gOf (gChain4.add_edge "A" "B")

def gChain6 : Graph := gOf (gChain5.add_edge "B" "C")

def gChain : Graph := gOf (gChain6.add_edge "C" "D")

def fzChain : FrozenGraph := fzOf gChain

/-- The two-node cycle `A → B → A`. -/
def gCyc1 : Graph := gOf (gAB.add_edge "A" "B")

def gCyc : Graph := gOf (gCyc1.add_edge "B" "A")

/-- A graph whose only node is named `$ROOT`. -/
def gRoot : Graph := gOf (Graph.new.add_node "$ROOT")

def fzRoot : FrozenGraph := fzOf gRoot

/-- Every task succeeds. -/
def sOutcome : Nat → TaskOutcome := fun _ => .succeeds

/-- Task `C` (index 2) reports a failure, the others succeed. -/
def outcomeC4 : Nat → TaskOutcome :=
  fun i => if i = 2 then .fails { msg := "boom" } else .succeeds

/-- Task `A` (index 0) reports a failure, the others succeed. -/
def outcomeAB : Nat → TaskOutcome :=
  fun i => if i = 0 then .fails { msg := "x" } else .succeeds

/-- Every task terminates abnormally with a `String` payload. -/
def outcomePanic : Nat → TaskOutcome := fun _ => .panics (.stringPayload "boom")

def dfltOut : RunOutcome := { result := .ok (), events := [], leftover := [], underflow := false }

def outOf (o : Option RunOutcome) : RunOutcome := o.getD dfltOut

/-- The chain run in which `C` fails (arrival order `A, B, C`). -/
def outChainFail : RunOutcome := outOf (fzChain.run outcomeC4 [0, 1, 2])

/-- The chain run in which everything succeeds. -/
def outChainOk : RunOutcome := outOf (fzChain.run sOutcome [0, 1, 2, 3])

/-- The two-node run in which `A` fails while `B` is still pending. -/
def outABFail : RunOutcome := outOf (fzAB.run outcomeAB [0])

/-- The one-node run whose task terminates abnormally. -/
def outAPanic : RunOutcome := outOf (fzA.run outcomePanic [0])

/-- The chain run states just before the second and third `recv`. -/
def stChainStart : RunState :=
  { counters := [1, 1, 1, 1], pending := [], events := [], underflow := false }

def stChain1 : RunState :=
  { counters := [0, 1, 1, 1], pending := [],
    events := [.dispatch 0, .consume 0], underflow := false }

def stChain2 : RunState :=
  { counters := [0, 0, 1, 1], pending := [],
    events := [.dispatch 0, .consume 0, .dispatch 1, .consume 1], underflow := false }

/-! ### The claims -/

/-- C8: `add_node` fails with `InvalidNode` iff the supplied name is empty,
fails with `DuplicatedNode` iff the name is non-empty and already
registered, and otherwise appends a new node whose index equals the node
count before the call and registers the name; on failure nothing is
mutated (the embedding returns no graph on failure, matching the source,
which validates before touching any state). -/
theorem claim_C8 (g : Graph) (name : String) (hwf : WF g) :
    (g.add_node name = .error (.InvalidNode name) ↔ name = "") ∧
    (g.add_node name = .error (.DuplicatedNode name) ↔
      name ≠ "" ∧ ∃ n ∈ g.nodes, n.name = name) ∧
    (name ≠ "" → (∀ n ∈ g.nodes, n.name ≠ name) →
      g.add_node name = .ok
        { nodes := g.nodes ++ [Node.new g.nodes.length name],
          nodes_indices := g.nodes_indices ++ [(name, g.nodes.length)] }) := by
  by_cases h1 : name = ""
  · subst h1
    refine ⟨?_, ?_, ?_⟩
    · unfold Graph.add_node
      rw [if_pos rfl]
      simp
    · unfold Graph.add_node
      rw [if_pos rfl]
      constructor
      · intro h
        simp at h
      · rintro ⟨h, -⟩
        exact absurd rfl h
    · intro h
      exact absurd rfl h
  · refine ⟨?_, ?_, ?_⟩
    · constructor
      · intro h
        unfold Graph.add_node at h
        rw [if_neg h1] at h
        by_cases h2 : (g.indexOfName name).isSome
        · rw [if_pos h2] at h
          simp at h
        · rw [if_neg h2] at h
          simp at h
      · intro h
        exact absurd h h1
    · constructor
      · intro h
        unfold Graph.add_node at h
        rw [if_neg h1] at h
        by_cases h2 : (g.indexOfName name).isSome
        · refine ⟨h1, ?_⟩
          obtain ⟨k, hk⟩ := Option.isSome_iff_exists.mp h2
          obtain ⟨hklt, hkname⟩ := indexOfName_spec hwf hk
          exact ⟨g.nodes.getD k Node.dflt, getD_mem hklt, hkname⟩
        · rw [if_neg h2] at h
          simp at h
      · rintro ⟨-, n, hn, hname⟩
        unfold Graph.add_node
        rw [if_neg h1]
        by_cases h2 : (g.indexOfName name).isSome
        · rw [if_pos h2]
        · exfalso
          rw [Option.not_isSome_iff_eq_none] at h2
          exact indexOfName_none hwf h2 n hn hname
    · intro hne hnone
      apply add_node_ok_iff.mpr
      refine ⟨hne, ?_, rfl⟩
      cases hfind : g.indexOfName name with
      | none => rfl
      | some k =>
        obtain ⟨hklt, hkname⟩ := indexOfName_spec hwf hfind
        exact absurd hkname (hnone _ (getD_mem hklt))

theorem claim_C8_witness :
    gA.add_node "" = Except.error (Err.InvalidNode "") ∧
    gA.add_node "A" = Except.error (Err.DuplicatedNode "A") := by
  have h := claim_C8 gA "" (by decide)
  have h2 := claim_C8 gA "A" (by decide)
  exact ⟨h.1.mpr rfl, h2.2.1.mpr ⟨by decide, by decide⟩⟩

/-- C7: `add_edge` errors are exactly `InvalidEdge`, `NodeNotFound` (for a
missing endpoint) or `DuplicatedEdge`, and an error leaves the graph in its
pre-call state (the embedding returns no graph on failure, matching the
source, which validates before mutating either endpoint); on success it
increments the target's `parent_count` by one, appends the target's index
to the source's child list, and changes nothing else. -/
theorem claim_C7 (g : Graph) (a b : String) (hwf : WF g) :
    (∀ e, g.add_edge a b = .error e →
      e = .InvalidEdge a b ∨ e = .NodeNotFound a ∨ e = .NodeNotFound b ∨
        e = .DuplicatedEdge a b) ∧
    (∀ g' pi ci, g.add_edge a b = .ok g' →
      g.indexOfName a = some pi → g.indexOfName b = some ci →
      g'.nodes.length = g.nodes.length ∧
      (g'.nodes.getD ci Node.dflt).parent_count =
        (g.nodes.getD ci Node.dflt).parent_count + 1 ∧
      (g'.nodes.getD pi Node.dflt).childrens =
        (g.nodes.getD pi Node.dflt).childrens ++ [ci] ∧
      (g'.nodes.getD pi Node.dflt).parent_count =
        (g.nodes.getD pi Node.dflt).parent_count ∧
      (g'.nodes.getD ci Node.dflt).childrens = (g.nodes.getD ci Node.dflt).childrens ∧
      (∀ k, k ≠ pi → k ≠ ci →
        g'.nodes.getD k Node.dflt = g.nodes.getD k Node.dflt)) := by
  constructor
  · intro e he
    by_cases h1 : a = "" ∨ b = "" ∨ a = b
    · unfold Graph.add_edge at he
      rw [if_pos h1] at he
      simp at he
      exact Or.inl he.symm
    · unfold Graph.add_edge at he
      rw [if_neg h1] at he
      cases hpa : g.indexOfName a with
      | none =>
        rw [hpa] at he
        simp at he
        exact Or.inr (Or.inl he.symm)
      | some pi =>
        cases hpb : g.indexOfName b with
        | none =>
          rw [hpa, hpb] at he
          dsimp only at he
          simp at he
          exact Or.inr (Or.inr (Or.inl he.symm))
        | some ci =>
          rw [hpa, hpb] at he
          dsimp only at he
          unfold Graph.add_child at he
          by_cases h2 : (g.nodes.getD ci Node.dflt).index ∈
              (g.nodes.getD pi Node.dflt).childrens_set
          · rw [if_pos h2] at he
            dsimp only at he
            simp at he
            obtain ⟨-, hna⟩ := indexOfName_spec hwf hpa
            obtain ⟨-, hnb⟩ := indexOfName_spec hwf hpb
            refine Or.inr (Or.inr (Or.inr ?_))
            simp only [← List.getD_eq_getElem?_getD] at he
            rw [← hna, ← hnb]
            exact he.symm
          · rw [if_neg h2] at he
            dsimp only at he
            simp at he
  · intro g2 pi ci hok hpa hpb
    obtain ⟨pi2, ci2, hpa2, hpb2, ha, hb, hab, hpici, hpilt, hcilt, hdup, hidc, hnodes⟩ :=
      add_edge_ok_char hwf hok
    have hpieq : pi = pi2 := by
      rw [hpa2] at hpa
      exact ((Option.some.injEq _ _).mp hpa).symm
    have hcieq : ci = ci2 := by
      rw [hpb2] at hpb
      exact ((Option.some.injEq _ _).mp hpb).symm
    subst hpieq
    subst hcieq
    have hlen2 : g2.nodes.length = g.nodes.length := by
      rw [hnodes]
      simp
    have hcipf : ci < (g.nodes.set pi ({ g.nodes.getD pi Node.dflt with
        childrens_set := (g.nodes.getD pi Node.dflt).childrens_set ++ [ci],
        childrens := (g.nodes.getD pi Node.dflt).childrens ++ [ci] })).length := by
      simp
      omega
    have hgetci : g2.nodes.getD ci Node.dflt =
        { g.nodes.getD ci Node.dflt with
            parent_count := (g.nodes.getD ci Node.dflt).parent_count + 1 } := by
      rw [hnodes]
      exact getD_set_self hcipf
    have hgetpi : g2.nodes.getD pi Node.dflt =
        { g.nodes.getD pi Node.dflt with
            childrens_set := (g.nodes.getD pi Node.dflt).childrens_set ++ [ci],
            childrens := (g.nodes.getD pi Node.dflt).childrens ++ [ci] } := by
      rw [hnodes, getD_set_ne (fun hh => hpici hh.symm)]
      exact getD_set_self hpilt
    refine ⟨hlen2, ?_, ?_, ?_, ?_, ?_⟩
    · rw [hgetci]
    · rw [hgetpi]
    · rw [hgetpi]
    · rw [hgetci]
    · intro k hkpi hkci
      rw [hnodes, getD_set_ne (fun hh => hkci hh.symm),
        getD_set_ne (fun hh => hkpi hh.symm)]

theorem claim_C7_witness :
    gAB.add_edge "A" "B" = Except.ok gCyc1 ∧
    (gCyc1.nodes.getD 1 Node.dflt).parent_count =
      (gAB.nodes.getD 1 Node.dflt).parent_count + 1 ∧
    (gCyc1.nodes.getD 0 Node.dflt).childrens =
      (gAB.nodes.getD 0 Node.dflt).childrens ++ [1] := by
  have h := (claim_C7 gAB "A" "B" (by decide)).2 gCyc1 0 1 rfl rfl rfl
  exact ⟨rfl, h.2.1, h.2.2.1⟩

/-- C6 (amended): the source does not reserve the root's name — `add_node`
accepts `"$ROOT"` — but when no user node carries that name, the frozen
root's name differs from every real node's name. -/
theorem claim_C6 (g : Graph) (fz : FrozenGraph) (hwf : WF g) (hok : g.froze = .ok fz)
    (hno : ∀ n ∈ g.nodes, n.name ≠ "$ROOT") :
    fz.root.name = "$ROOT" ∧
    ∀ k, k < fz.graph.nodes.length → fz.nameOf k ≠ fz.root.name := by
  refine ⟨fz_root_name hwf hok, ?_⟩
  intro k hk
  rw [fz_root_name hwf hok]
  have hkg : k < g.nodes.length := by
    rw [← fz_len hwf hok]
    exact hk
  obtain ⟨hfz, -⟩ := froze_ok_inv hok
  obtain ⟨-, -, -, -, h5⟩ := frozeInit_spec hwf
  show (fz.graph.nodes.getD k Node.dflt).name ≠ _
  have hget : fz.graph.nodes.getD k Node.dflt = bumpNode (g.nodes.getD k Node.dflt) := by
    rw [hfz]
    show (frozeInit g).2.1.nodes.getD k Node.dflt = _
    rw [h5 k, if_pos hkg]
  rw [hget, bumpNode_name]
  exact hno _ (getD_mem hkg)

/-- C6 counterexample: the claimed reservation does not hold — a node named
`$ROOT` is accepted by `add_node`, and after freezing that graph the
synthetic root's name collides with the real node's name. -/
theorem claim_C6_cex :
    Graph.new.add_node "$ROOT" = Except.ok gRoot ∧
    gRoot.froze = Except.ok fzRoot ∧
    fzRoot.root.name = (fzRoot.graph.nodes.getD 0 Node.dflt).name := ⟨rfl, rfl, rfl⟩

theorem claim_C6_witness :
    gA.froze = Except.ok fzA ∧ fzA.root.name = "$ROOT" ∧
    fzA.nameOf 0 ≠ fzA.root.name := by
  have h := claim_C6 gA fzA (by decide) rfl (by decide)
  exact ⟨rfl, h.1, h.2 0 (by decide)⟩

/-- C5: for every graph `froze` accepts, the synthetic root has index equal
to the real node count and its ordered child list is exactly the (duplicate
free) list of indices of the zero-`parent_count` nodes; the real node
sequence is unchanged apart from those root edges (only the
`parent_count` of each zero-parent node is bumped by one, accounting for
its new root parent). -/
theorem claim_C5 (g : Graph) (fz : FrozenGraph) (hwf : WF g) (hok : g.froze = .ok fz) :
    fz.root.index = g.nodes.length ∧
    fz.root.childrens = zeroIndices g ∧
    (∀ i, i ∈ fz.root.childrens ↔
      i < g.nodes.length ∧ (g.nodes.getD i Node.dflt).parent_count = 0) ∧
    fz.root.childrens.Nodup ∧
    fz.graph.nodes.length = g.nodes.length ∧
    (∀ k, k < g.nodes.length →
      (fz.graph.nodes.getD k Node.dflt).name = (g.nodes.getD k Node.dflt).name ∧
      (fz.graph.nodes.getD k Node.dflt).index = (g.nodes.getD k Node.dflt).index ∧
      (fz.graph.nodes.getD k Node.dflt).childrens =
        (g.nodes.getD k Node.dflt).childrens ∧
      (fz.graph.nodes.getD k Node.dflt).parent_count =
        (if (g.nodes.getD k Node.dflt).parent_count = 0 then 1 else 0) +
          (g.nodes.getD k Node.dflt).parent_count) := by
  obtain ⟨hfz, -⟩ := froze_ok_inv hok
  obtain ⟨h1, h2, h3, h4, h5⟩ := frozeInit_spec hwf
  refine ⟨fz_root_index hwf hok, fz_root_childrens hwf hok, ?_, ?_, fz_len hwf hok, ?_⟩
  · intro i
    rw [fz_root_childrens hwf hok]
    exact mem_zeroIndices
  · rw [fz_root_childrens hwf hok]
    exact (List.nodup_range _).filter _
  · intro k hk
    have hget : fz.graph.nodes.getD k Node.dflt =
        bumpNode (g.nodes.getD k Node.dflt) := by
      rw [hfz]
      show (frozeInit g).2.1.nodes.getD k Node.dflt = _
      rw [h5 k, if_pos hk]
    refine ⟨by rw [hget, bumpNode_name], by rw [hget, bumpNode_index],
      by rw [hget, bumpNode_childrens], ?_⟩
    rw [hget]
    unfold bumpNode
    by_cases hz : (g.nodes.getD k Node.dflt).parent_count = 0
    · rw [if_pos hz, if_pos hz]
      show (g.nodes.getD k Node.dflt).parent_count + 1 = _
      omega
    · rw [if_neg hz, if_neg hz]
      omega

theorem claim_C5_witness :
    gChain.froze = Except.ok fzChain ∧ fzChain.root.index = 4 ∧
    fzChain.root.childrens = zeroIndices gChain ∧ zeroIndices gChain = [0] := by
  have h := claim_C5 gChain fzChain (by decide) rfl
  exact ⟨rfl, h.1, h.2.1, rfl⟩

/-- C3: `froze` fails (necessarily with `CyclicGraphFound`) iff the graph
has a cycle, and the payload is the bracketed, comma-joined list of the
names of exactly those nodes whose remaining in-degree stayed positive —
the nodes Kahn's algorithm never dequeued — in insertion order. -/
theorem claim_C3 (g : Graph) (hwf : WF g) :
    ((∃ r, g.froze = .error (.CyclicGraphFound r)) ↔ hasCycle g) ∧
    (∀ r, g.froze = .error (.CyclicGraphFound r) →
      r = "[" ++ joinComma ((unresolvedIndices g).map
        (fun i => (g.nodes.getD i Node.dflt).name)) ++ "]" ∧
      ∀ i, i ∈ unresolvedIndices g ↔ i < g.nodes.length ∧ i ∉ kahnOrder g) := by
  have hchar : ∀ r, g.froze = .error (.CyclicGraphFound r) →
      (frozeFinal g).queue_i < g.nodes.length ∧ r = frozeRing g := by
    intro r hr
    unfold Graph.froze at hr
    by_cases hc : (frozeFinal g).queue_i < g.nodes.length
    · rw [if_pos hc] at hr
      simp only [Except.error.injEq, Err.CyclicGraphFound.injEq] at hr
      exact ⟨hc, hr.symm⟩
    · rw [if_neg hc] at hr
      exact absurd hr (by simp)
  constructor
  · constructor
    · rintro ⟨r, hr⟩
      exact cycle_of_froze_fail hwf (hchar r hr).1
    · intro hcyc
      by_cases hc : (frozeFinal g).queue_i < g.nodes.length
      · refine ⟨frozeRing g, ?_⟩
        unfold Graph.froze
        rw [if_pos hc]
      · exact absurd hcyc (no_cycle_of_froze_ok hwf hc)
  · intro r hr
    obtain ⟨hc, hreq⟩ := hchar r hr
    subst hreq
    refine ⟨frozeRing_eq hwf, ?_⟩
    intro i
    unfold unresolvedIndices
    rw [List.mem_filter, List.mem_range]
    constructor
    · rintro ⟨hi, hpos⟩
      exact ⟨hi, (unresolved_iff_not_queued hwf i hi).mp (of_decide_eq_true hpos)⟩
    · rintro ⟨hi, hnq⟩
      exact ⟨hi, decide_eq_true ((unresolved_iff_not_queued hwf i hi).mpr hnq)⟩

theorem claim_C3_witness :
    hasCycle gCyc ∧ gCyc.froze = Except.error (Err.CyclicGraphFound "[A, B]") := by
  have h := claim_C3 gCyc (by decide)
  have hfz : gCyc.froze = Except.error (Err.CyclicGraphFound "[A, B]") := rfl
  exact ⟨h.1.mp ⟨"[A, B]", hfz⟩, hfz⟩

/-- C10: on every API-built graph, the Kahn loop of `froze` never
underflows its in-degree counters, and no completed `run` ever underflows
its `n_unfinished` counters — because each node's counter equals its number
of distinct parents (`parent_count` before freezing; the compiled parents,
synthetic root included, after freezing) and each parent is processed at
most once. -/
theorem claim_C10 (g : Graph) (hbuilt : Built g) :
    (frozeFinal g).underflow = false ∧
    (∀ c, c < g.nodes.length →
      (g.nodes.getD c Node.dflt).parent_count = (parentsIn g.nodes c).length) ∧
    (∀ fz, g.froze = .ok fz →
      (∀ c, c < g.nodes.length →
        (fz.graph.nodes.getD c Node.dflt).parent_count = (fz.fparents c).length) ∧
      ∀ outcome sched out, fz.run outcome sched = some out →
        out.underflow = false) := by
  have hwf := built_wf hbuilt
  refine ⟨((frozeFinal_spec hwf).1).2.2.2.2.2.2.2, hwf.2.2.2.2.2.2.2, ?_⟩
  intro fz hok
  refine ⟨fz_pc hwf hok, ?_⟩
  intro outcome sched out hrun
  exact (run_sound hwf hok hrun).1

theorem claim_C10_witness :
    (frozeFinal gChain).underflow = false ∧
    (gChain.nodes.getD 1 Node.dflt).parent_count = (parentsIn gChain.nodes 1).length ∧
    outChainOk.underflow = false := by
  have hb0 : Built Graph.new := Built.new
  have hb1 : Built gA := @Built.add_node Graph.new gA "A" hb0 rfl
  have hb2 : Built gAB := @Built.add_node gA gAB "B" hb1 rfl
  have hb3 : Built gChain3 := @Built.add_node gAB gChain3 "C" hb2 rfl
  have hb4 : Built gChain4 := @Built.add_node gChain3 gChain4 "D" hb3 rfl
  have hb5 : Built gChain5 := @Built.add_edge gChain4 gChain5 "A" "B" hb4 rfl
  have hb6 : Built gChain6 := @Built.add_edge gChain5 gChain6 "B" "C" hb5 rfl
  have hb : Built gChain := @Built.add_edge gChain6 gChain "C" "D" hb6 rfl
  have h := claim_C10 gChain hb
  exact ⟨h.1, h.2.1 1 (by decide),
    (h.2.2 fzChain rfl).2 sOutcome [0, 1, 2, 3] outChainOk rfl⟩

/-- C1 (amended): when `run` observes a failure or abnormal termination it
stops dispatching and the scoped threads are joined, but `run` does NOT
drain the channel: the completion event of every dispatched-but-unconsumed
unit stays queued in the Scheduler's channel after the call (the channel is
empty after `run` only when `run` returned success), so a sequential retry
on the same Scheduler starts with those stale events still queued. -/
theorem claim_C1 {g : Graph} {fz : FrozenGraph} (outcome : Nat → TaskOutcome)
    (sched : List Nat) (out : RunOutcome) (hwf : WF g) (hok : g.froze = .ok fz)
    (hrun : fz.run outcome sched = some out) :
    out.leftover = ((dispatchedOf out.events).filter
      (fun y => decide (y ∉ consumedOf out.events))).map (eventFor outcome) ∧
    (out.result = .ok () → out.leftover = []) ∧
    (Scheduler.new fz).runOnce outcome sched =
      some (out.result, { frozen := fz, channel := out.leftover }) := by
  have hs := run_sound hwf hok hrun
  refine ⟨hs.2.2.2.2.2.1, fun hok2 => (hs.2.2.2.2.2.2.2.1 hok2).2.2, ?_⟩
  unfold Scheduler.runOnce Scheduler.new
  rw [hrun]
  simp

/-- C1 counterexample: in the two-root graph `{A, B}` where `A`'s task
fails while `B` is still pending, `run` returns without consuming `B`'s
completion event — it stays in the Scheduler's channel, so the next `run`
on the same Scheduler does not start with an empty channel, refuting the
claim that every already-dispatched unit's event is consumed before
returning. -/
theorem claim_C1_cex :
    fzAB.run outcomeAB [0] = some outABFail ∧
    1 ∈ dispatchedOf outABFail.events ∧
    1 ∉ consumedOf outABFail.events ∧
    outABFail.leftover = [RunningResult.Done 1] ∧
    (Scheduler.new fzAB).runOnce outcomeAB [0] =
      some (Except.error (Err.RuntimeFailed "A" { msg := "x" }),
        { frozen := fzAB, channel := [RunningResult.Done 1] }) :=
  ⟨rfl, by decide, by decide, rfl, rfl⟩

theorem claim_C1_witness :
    fzAB.run outcomeAB [0] = some outABFail ∧
    (Scheduler.new fzAB).runOnce outcomeAB [0] =
      some (outABFail.result, { frozen := fzAB, channel := outABFail.leftover }) := by
  have h := claim_C1 outcomeAB [0] outABFail (show WF gAB by decide)
    (show gAB.froze = .ok fzAB from rfl) rfl
  exact ⟨rfl, h.2.2⟩

/-- C9 (amended): when a task terminates abnormally, `run` returns
`RuntimePanicked` naming that node; displaying the error surfaces the
payload's message verbatim exactly when the payload's concrete type is
`String` (the only downcast the source attempts), and otherwise — even for
other textual payloads such as `&str` — surfaces the generic
"panic occurred" message. -/
theorem claim_C9 {g : Graph} {fz : FrozenGraph} (outcome : Nat → TaskOutcome)
    (sched : List Nat) (out : RunOutcome) (nm : String) (pp : PanicPayload)
    (hwf : WF g) (hok : g.froze = .ok fz) (hrun : fz.run outcome sched = some out)
    (hres : out.result = .error (.RuntimePanicked nm pp)) :
    (∃ x, x < fz.graph.nodes.length ∧ nm = fz.nameOf x ∧ outcome x = .panics pp ∧
      x ∈ dispatchedOf out.events) ∧
    (∀ s, pp.downcastString = some s →
      (Err.RuntimePanicked nm pp).display = "run " ++ nm ++ " panic: " ++ s) ∧
    (pp.downcastString = none →
      (Err.RuntimePanicked nm pp).display = "run " ++ nm ++ " panic occurred") := by
  have hs := run_sound hwf hok hrun
  refine ⟨hs.2.2.2.2.2.2.2.2.2 nm pp hres, ?_, ?_⟩
  · intro str hdc
    unfold Err.display
    dsimp only
    rw [hdc]
  · intro hdc
    unfold Err.display
    dsimp only
    rw [hdc]

/-- C9 counterexample: a `&str` panic payload carries a textual message,
yet displaying the error yields the generic message, not the verbatim
text — refuting "verbatim whenever the payload carries one (of any textual
form)". -/
theorem claim_C9_cex :
    (PanicPayload.strPayload "boom").textualMessage = some "boom" ∧
    (Err.RuntimePanicked "A" (.strPayload "boom")).display = "run A panic occurred" ∧
    (Err.RuntimePanicked "A" (.strPayload "boom")).display ≠ "run A panic: boom" :=
  ⟨rfl, rfl, by decide⟩

theorem claim_C9_witness :
    fzA.run outcomePanic [0] = some outAPanic ∧
    outAPanic.result = Except.error (Err.RuntimePanicked "A" (.stringPayload "boom")) ∧
    (Err.RuntimePanicked "A" (PanicPayload.stringPayload "boom")).display =
      "run A panic: boom" := by
  have h := claim_C9 outcomePanic [0] outAPanic "A" (.stringPayload "boom")
    (show WF gA by decide) (show gA.froze = .ok fzA from rfl) rfl rfl
  exact ⟨rfl, rfl, h.2.1 "boom" rfl⟩

/-- C2: in any completed run, no node is dispatched twice, a child is
dispatched by `dispatchChild` exactly when its remaining-dependency counter
transitions from 1 to 0 (each processed parent contributing exactly one
decrement), no node is dispatched before all of its compiled parents'
completion events were consumed, and in a fully successful run every real
node is dispatched and consumed exactly once; conversely, when every task
succeeds some arrival order (the Kahn order) completes the run. -/
theorem claim_C2 {g : Graph} {fz : FrozenGraph} (outcome : Nat → TaskOutcome)
    (hwf : WF g) (hok : g.froze = .ok fz) :
    (∀ st i, st.underflow = false → i < st.counters.length →
      (((dispatchChild st i).events = st.events ++ [REvent.dispatch i] ∧
        (dispatchChild st i).underflow = false) ↔ st.counters.getD i 0 = 1) ∧
      (dispatchChild st i).counters.getD i 0 = st.counters.getD i 0 - 1) ∧
    (∀ sched out, fz.run outcome sched = some out →
      (dispatchedOf out.events).Nodup ∧
      (∀ t c, out.events.getD t (.consume 0) = .dispatch c →
        ∀ p ∈ fz.fparents c, p < fz.graph.nodes.length →
          REvent.consume p ∈ out.events.take t) ∧
      (out.result = .ok () → ∀ i, i < fz.graph.nodes.length →
        (dispatchedOf out.events).count i = 1 ∧ (consumedOf out.events).count i = 1)) ∧
    ((∀ i, outcome i = .succeeds) →
      ∃ out, fz.run outcome (kahnOrder g) = some out ∧ out.result = .ok ()) := by
  refine ⟨?_, ?_, run_complete hwf hok⟩
  · intro st i hu hlen
    have hdec : (dispatchChild st i).counters.getD i 0 = st.counters.getD i 0 - 1 := by
      unfold dispatchChild
      dsimp only
      by_cases hd : st.counters.getD i 0 - 1 = 0
      · rw [if_pos hd]
        show (st.counters.set i (st.counters.getD i 0 - 1)).getD i 0 = _
        exact getD_set_self hlen
      · rw [if_neg hd]
        show (st.counters.set i (st.counters.getD i 0 - 1)).getD i 0 = _
        exact getD_set_self hlen
    refine ⟨?_, hdec⟩
    constructor
    · rintro ⟨hev, hun⟩
      by_cases hd : st.counters.getD i 0 - 1 = 0
      · have hueq : (dispatchChild st i).underflow =
            (st.underflow || decide (st.counters.getD i 0 = 0)) := by
          unfold dispatchChild
          dsimp only
          rw [if_pos hd]
        rw [hueq, hu, Bool.false_or] at hun
        have := of_decide_eq_false hun
        omega
      · exfalso
        have heve : (dispatchChild st i).events = st.events := by
          unfold dispatchChild
          dsimp only
          rw [if_neg hd]
        rw [heve] at hev
        have hlen2 := congrArg List.length hev
        simp at hlen2
    · intro h1
      have hd : st.counters.getD i 0 - 1 = 0 := by omega
      constructor
      · unfold dispatchChild
        dsimp only
        rw [if_pos hd]
      · have hueq : (dispatchChild st i).underflow =
            (st.underflow || decide (st.counters.getD i 0 = 0)) := by
          unfold dispatchChild
          dsimp only
          rw [if_pos hd]
        rw [hueq, hu, Bool.false_or]
        exact decide_eq_false (by omega)
  · intro sched out hrun
    have hs := run_sound hwf hok hrun
    refine ⟨hs.2.1, hs.2.2.2.2.2.2.1, ?_⟩
    intro hres i hi
    have h8 := hs.2.2.2.2.2.2.2.1 hres
    exact ⟨List.count_eq_one_of_mem hs.2.1 ((h8.1 i).mpr hi),
      List.count_eq_one_of_mem hs.2.2.2.1 ((h8.2.1 i).mpr hi)⟩

theorem claim_C2_witness :
    fzChain.run sOutcome [0, 1, 2, 3] = some outChainOk ∧
    (dispatchedOf outChainOk.events).count 2 = 1 ∧
    (consumedOf outChainOk.events).count 2 = 1 := by
  have h := (claim_C2 sOutcome (show WF gChain by decide)
    (show gChain.froze = .ok fzChain from rfl)).2.1 [0, 1, 2, 3] outChainOk rfl
  have hc := h.2.2 rfl 2 (by decide)
  exact ⟨rfl, hc.1, hc.2⟩

/-- C4: in the linear chain `A → B → C → D` where `C`'s task reports the
failure `"boom"` and the others succeed, every completed run returns
`RuntimeFailed` naming `C` with exactly that error, dispatches exactly
`A`, `B`, `C` (in that order), and never dispatches `D`; the arrival order
`A, B, C` indeed completes. -/
theorem claim_C4 :
    fzChain.run outcomeC4 [0, 1, 2] = some outChainFail ∧
    outChainFail.result = .error (.RuntimeFailed "C" { msg := "boom" }) ∧
    ∀ sched out, fzChain.run outcomeC4 sched = some out →
      out.result = .error (.RuntimeFailed "C" { msg := "boom" }) ∧
      dispatchedOf out.events = [0, 1, 2] ∧
      3 ∉ dispatchedOf out.events := by
  refine ⟨rfl, rfl, ?_⟩
  intro sched out h
  have heq0 : fzChain.run outcomeC4 sched = runLoop fzChain outcomeC4 (3 + 1)
      fzChain.root.childrens stChainStart sched := rfl
  rw [heq0] at h
  rcases sched with _ | ⟨x0, s1⟩
  · rw [runLoop_succ_nil] at h
    exact Option.noConfusion h
  · by_cases h0 : x0 = 0
    · subst h0
      rcases s1 with _ | ⟨x1, s2⟩
      · have hn : runLoop fzChain outcomeC4 (3 + 1) fzChain.root.childrens
            stChainStart [0] = none := rfl
        rw [hn] at h
        exact Option.noConfusion h
      · have heq1 : runLoop fzChain outcomeC4 (3 + 1) fzChain.root.childrens
            stChainStart (0 :: x1 :: s2) = runLoop fzChain outcomeC4 (2 + 1)
            (fzChain.childrensOf 0) stChain1 (x1 :: s2) := rfl
        rw [heq1] at h
        by_cases h1 : x1 = 1
        · subst h1
          rcases s2 with _ | ⟨x2, s3⟩
          · have hn : runLoop fzChain outcomeC4 (2 + 1) (fzChain.childrensOf 0)
                stChain1 [1] = none := rfl
            rw [hn] at h
            exact Option.noConfusion h
          · have heq2 : runLoop fzChain outcomeC4 (2 + 1) (fzChain.childrensOf 0)
                stChain1 (1 :: x2 :: s3) = runLoop fzChain outcomeC4 (1 + 1)
                (fzChain.childrensOf 1) stChain2 (x2 :: s3) := rfl
            rw [heq2] at h
            by_cases h2 : x2 = 2
            · subst h2
              have heq3 : runLoop fzChain outcomeC4 (1 + 1) (fzChain.childrensOf 1)
                  stChain2 (2 :: s3) = some outChainFail := rfl
              rw [heq3] at h
              injection h with h
              subst h
              exact ⟨rfl, rfl, by decide⟩
            · rw [runLoop_succ_cons] at h
              have hp : (dispatchPhase stChain2 (fzChain.childrensOf 1)).pending =
                  [2] := rfl
              rw [hp] at h
              rw [if_neg (by simp [h2])] at h
              exact Option.noConfusion h
        · rw [runLoop_succ_cons] at h
          have hp : (dispatchPhase stChain1 (fzChain.childrensOf 0)).pending =
              [1] := rfl
          rw [hp] at h
          rw [if_neg (by simp [h1])] at h
          exact Option.noConfusion h
    · rw [runLoop_succ_cons] at h
      have hp : (dispatchPhase stChainStart fzChain.root.childrens).pending =
          [0] := rfl
      rw [hp] at h
      rw [if_neg (by simp [h0])] at h
      exact Option.noConfusion h

theorem claim_C4_witness :
    outChainFail.result = Except.error (Err.RuntimeFailed "C" { msg := "boom" }) ∧
    dispatchedOf outChainFail.events = [0, 1, 2] ∧
    3 ∉ dispatchedOf outChainFail.events :=
  claim_C4.2.2 [0, 1, 2] outChainFail rfl

end DagEngine
